import Mathlib

/-!
# SpamVision frontend: workflow contract of the client

A shallow embedding of the client code under `src/frontend/src`:

* `api/client.js`            : `request`, `predict`, `getModels`, `uploadModel`,
  `getReviewQueue`, `submitReview`
* `components/PredictForm.jsx` : `handlePredict`
* `pages/Home.jsx`           : the `onResult` / `onExplain` callbacks
* `pages/ReviewQueue.jsx`    : `loadQueue`, `doAction`
* `pages/ModelManager.jsx`   : `loadModels`, `handleUpload`
* `pages/Dashboard.jsx`      : `ConfidenceHistogram`

JavaScript values are embedded as `JsVal`; a number carried by a `JsVal` is
only tested for truthiness or passed on, and is held by its rational value. The
arithmetic of the histogram is IEEE binary64 arithmetic, embedded as `F64`.
`await` is sequential composition; a handler is a function from its
inputs to the list of effects it performs, in order, and the React state of a
component after the handler is obtained by replaying that list.
-/

set_option exponentiation.threshold 2048

namespace SpamVision

/-! ## JavaScript values -/

/-- The JavaScript values the client handles: what `JSON.parse` can return,
plus `undefined` (the result of reading a property that is absent). -/
inductive JsVal where
  | undefined
  | null
  | bool (b : Bool)
  | num (q : ℚ)
  | str (s : String)
  | arr (elems : List JsVal)
  | obj (fields : List (String × JsVal))

namespace JsVal

/-- ToBoolean: `undefined`, `null`, `false`, `0` and `""` are falsy, every
other value (every array and every object, also the empty ones) is truthy. -/
def truthy : JsVal → Bool
  | undefined => false
  | null => false
  | bool b => b
  | num q => decide (q ≠ 0)
  | str s => decide (s ≠ "")
  | arr _ => true
  | obj _ => true

/-- The operator `a || b`. -/
def or (a b : JsVal) : JsVal :=
  if a.truthy then a else b

/-- Whether a value is an array. -/
def isArray : JsVal → Bool
  | arr _ => true
  | _ => false

/-- The value of `v.key` when the read does not throw: the field of an object
that has one, `undefined` otherwise. -/
def field (v : JsVal) (key : String) : JsVal :=
  match v with
  | obj fields => (fields.lookup key).getD undefined
  | _ => undefined

/-- Whether a value is an array or an object. -/
def isStructured : JsVal → Bool
  | arr _ => true
  | obj _ => true
  | _ => false

/-- Whether reading a property of the value throws (`null` and `undefined`). -/
def isNullish : JsVal → Bool
  | undefined => true
  | null => true
  | _ => false

end JsVal

/-! ## Host functions

`JSON.parse`, `JSON.stringify`, the string conversion done by `new Error(v)`
and the wording of a `TypeError` belong to the JavaScript engine, not to the
repository; they are parameters of the model. -/

/-- The engine functions the client calls. -/
structure Host where
  /-- `JSON.parse(s)`: the parsed value, or the message of the `SyntaxError`. -/
  parse : String → Except String JsVal
  /-- `JSON.stringify(v)`. -/
  stringify : JsVal → String
  /-- The message of `new Error(v)`, that is `String(v)`. -/
  toStr : JsVal → String
  /-- The message of the `TypeError` raised by reading property `key` of
  `null` or `undefined`. -/
  typeErrorMsg : JsVal → String → String

/-- The property read `v.key`, for the own data properties the client reads
(`detail`, `error`, `items`, `explanation`, `id`): a `TypeError` on `null` and
`undefined`, the field of an object when it has one, `undefined` otherwise. -/
def getProp (h : Host) (v : JsVal) (key : String) : Except String JsVal :=
  if v.isNullish then .error (h.typeErrorMsg v key) else .ok (v.field key)

/-! ## `api/client.js` -/

/-- What `await fetch(url, opts)` followed by `await res.text()` gives: a
rejection (unreachable host, aborted body), or a response with its `ok` flag
(status in 200..299) and its body text. -/
inductive FetchOutcome where
  | rejected (message : String)
  | response (ok : Bool) (text : String)

/-- The body of the `try` block of `request` (lines 9-11): the value it
returns, or the message of what it throws. -/
def requestTry (h : Host) (ok : Bool) (text : String) : Except String JsVal :=
  match h.parse (if text = "" then "\x7b\x7d" else text) with
  | .error syntaxMsg => .error syntaxMsg
  | .ok json =>
    if !ok then
      match getProp h json "detail" with
      | .error typeMsg => .error typeMsg
      | .ok detail =>
        if detail.truthy then .error (h.toStr detail)
        else
          match getProp h json "error" with
          | .error typeMsg => .error typeMsg
          | .ok err =>
            .error (h.toStr (err.or (.str (h.stringify json))))
    else .ok json

/-- The function `request(path, opts)` on the outcome of its `fetch`: the
value it resolves to, or the message of the `Error` it rejects with. -/
def request (h : Host) (out : FetchOutcome) : Except String JsVal :=
  match out with
  | .rejected message => .error message
  | .response ok text =>
    match requestTry h ok text with
    | .ok json => .ok json
    | .error message =>
      if !ok then .error (if text = "" then message else text)
      else .ok (.obj [])

/-- A `File` picked in a file input: an opaque handle, told apart by its name. -/
structure JsFile where
  name : String

/-- A value appended to a `FormData`. -/
inductive FormValue where
  | file (f : JsFile)
  | text (s : String)
  | number (q : ℚ)

/-- What the client hands to `fetch`: the path appended to `BASE`, the method
(`GET` when `opts` names none) and, for a JSON request, the value given to
`JSON.stringify` for the body; for a multipart request, the entries appended
to the `FormData` that is the body, in order. -/
structure HttpRequest where
  path : String
  method : String
  jsonBody : Option JsVal
  formBody : Option (List (String × FormValue)) := none

/-- The backend as seen from the client: the outcome of each request. -/
abbrev Backend := HttpRequest → FetchOutcome

/-- What a handler does, in order. -/
inductive Effect where
  | fetch (req : HttpRequest)
  | alert (message : String)
  | consoleError (message : String)
  | setLoading (b : Bool)
  | setItems (v : JsVal)
  | onResult (resp : JsVal)
  | onExplain (resp : JsVal) (payload : JsVal)
  | preventDefault
  | setModels (v : JsVal)
  | setFile (f : Option JsFile)
  | setVersion (s : String)

/-- The object `body` built by `predict(text, threshold = null)`: `text`, and
`threshold` when it is not `null`. -/
def predictBody (text : String) (threshold : Option ℚ) : JsVal :=
  .obj (("text", .str text) ::
    match threshold with
    | none => []
    | some t => [("threshold", .num t)])

/-- The request issued by `predict`. -/
def predictRequest (text : String) (threshold : Option ℚ) : HttpRequest :=
  { path := "/predict/", method := "POST", jsonBody := some (predictBody text threshold) }

/-- The function `predict(text, threshold)`: the request it issues and what it
resolves to or rejects with. -/
def predict (h : Host) (backend : Backend) (text : String) (threshold : Option ℚ) :
    List Effect × Except String JsVal :=
  ([.fetch (predictRequest text threshold)], request h (backend (predictRequest text threshold)))

/-- The request issued by `getReviewQueue(limit)`. -/
def reviewQueueRequest (limit : Nat) : HttpRequest :=
  { path := "/review/queue?limit=" ++ toString limit, method := "GET", jsonBody := none }

/-- The function `getReviewQueue(limit = 25)`. -/
def getReviewQueue (h : Host) (backend : Backend) (limit : Nat) :
    List Effect × Except String JsVal :=
  ([.fetch (reviewQueueRequest limit)], request h (backend (reviewQueueRequest limit)))

/-- The request issued by `submitReview(item)`. -/
def submitReviewRequest (item : JsVal) : HttpRequest :=
  { path := "/review/submit", method := "POST", jsonBody := some item }

/-- The function `submitReview(item)`. -/
def submitReview (h : Host) (backend : Backend) (item : JsVal) :
    List Effect × Except String JsVal :=
  ([.fetch (submitReviewRequest item)], request h (backend (submitReviewRequest item)))

/-- The request issued by `getModels()`. -/
def modelsRequest : HttpRequest :=
  { path := "/admin/models", method := "GET", jsonBody := none }

/-- The function `getModels()`. -/
def getModels (h : Host) (backend : Backend) : List Effect × Except String JsVal :=
  ([.fetch modelsRequest], request h (backend modelsRequest))

/-- The `FormData` built by `uploadModel(file, version, threshold = null)`:
`file`, `version`, and `threshold` when it is not `null`. -/
def uploadForm (file : JsFile) (version : String) (threshold : Option ℚ) :
    List (String × FormValue) :=
  [("file", .file file), ("version", .text version)] ++
    match threshold with
    | none => []
    | some t => [("threshold", .number t)]

/-- The request issued by `uploadModel`. -/
def uploadRequest (file : JsFile) (version : String) (threshold : Option ℚ) : HttpRequest :=
  { path := "/admin/upload", method := "POST", jsonBody := none,
    formBody := some (uploadForm file version threshold) }

/-- The function `uploadModel(file, version, threshold)`. -/
def uploadModel (h : Host) (backend : Backend) (file : JsFile) (version : String)
    (threshold : Option ℚ) : List Effect × Except String JsVal :=
  ([.fetch (uploadRequest file version threshold)],
    request h (backend (uploadRequest file version threshold)))

/-! ## `components/PredictForm.jsx` and `pages/Home.jsx` -/

/-- The code points `String.prototype.trim` strips: ECMAScript WhiteSpace
(TAB, VT, FF, ZWNBSP and the space separators) and LineTerminator (LF, CR, LS,
PS). -/
def isJsWhiteSpace (c : Char) : Bool :=
  c.toNat ∈ [0x9, 0xA, 0xB, 0xC, 0xD, 0x20, 0xA0, 0x1680, 0x2000, 0x2001, 0x2002, 0x2003,
    0x2004, 0x2005, 0x2006, 0x2007, 0x2008, 0x2009, 0x200A, 0x2028, 0x2029, 0x202F, 0x205F,
    0x3000, 0xFEFF]

/-- The method `text.trim()`. -/
def jsTrim (text : String) : String :=
  ⟨((text.data.dropWhile isJsWhiteSpace).reverse.dropWhile isJsWhiteSpace).reverse⟩

/-- The handler `handlePredict(explain)` of `PredictForm`, on the `text` state
and on `threshold`, the value of `Number(threshold)`. -/
def handlePredict (h : Host) (backend : Backend) (text : String) (threshold : ℚ)
    (_explain : Bool) : List Effect :=
  if !(JsVal.str (jsTrim text)).truthy then [.alert "Enter a message to predict."]
  else
    let call := predict h backend text (some threshold)
    [.setLoading true] ++ call.1 ++
      (match call.2 with
        | .error message => [.alert ("Prediction failed: " ++ message)]
        | .ok resp =>
          .onResult resp ::
            match getProp h resp "explanation" with
            | .error message => [.alert ("Prediction failed: " ++ message)]
            | .ok explanation =>
              if explanation.truthy then [.onExplain resp explanation] else [])
      ++ [.setLoading false]

/-- The state of `Home`: `result` and `shap`, both `null` at first. -/
structure HomeState where
  result : JsVal
  shap : JsVal

/-- The callbacks `Home` passes to `PredictForm` (line 15). -/
def Home.step (s : HomeState) : Effect → HomeState
  | .onResult r => { result := r, shap := .null }
  | .onExplain r shapPayload => { result := r, shap := shapPayload }
  | _ => s

/-- The state of `Home` after the effects of a handler. -/
def Home.run (s : HomeState) (effects : List Effect) : HomeState :=
  effects.foldl Home.step s

/-- Whether an effect is a backend request. -/
def Effect.isFetch : Effect → Bool
  | .fetch _ => true
  | _ => false

/-- Whether an effect is a call of `onResult` or `onExplain`. -/
def Effect.isCallback : Effect → Bool
  | .onResult _ => true
  | .onExplain _ _ => true
  | _ => false

/-- Whether an effect is a call of `setItems`. -/
def Effect.isSetItems : Effect → Bool
  | .setItems _ => true
  | _ => false

/-! ## `pages/ReviewQueue.jsx` -/

/-- The handler `loadQueue()`. -/
def loadQueue (h : Host) (backend : Backend) : List Effect :=
  let call := getReviewQueue h backend 50
  [.setLoading true] ++ call.1 ++
    (match call.2 with
      | .error message => [.consoleError message, .alert "Failed to load review queue"]
      | .ok resp =>
        match getProp h resp "items" with
        | .error message => [.consoleError message, .alert "Failed to load review queue"]
        | .ok respItems => [.setItems ((respItems.or resp).or (.arr []))])
    ++ [.setLoading false]

/-- The `items` state of `ReviewQueue` after an effect. -/
def ReviewQueue.step (items : JsVal) : Effect → JsVal
  | .setItems v => v
  | _ => items

/-- The `items` state of `ReviewQueue` after the effects of a handler. -/
def ReviewQueue.run (items : JsVal) (effects : List Effect) : JsVal :=
  effects.foldl ReviewQueue.step items

/-- The comparison `a === b`. Primitives compare by value; two arrays or two
objects are equal only when they are the same reference, which `sameRef`
tells. -/
def strictEq (sameRef : Bool) : JsVal → JsVal → Bool
  | .undefined, .undefined => true
  | .null, .null => true
  | .bool a, .bool b => decide (a = b)
  | .num a, .num b => decide (a = b)
  | .str a, .str b => decide (a = b)
  | .arr _, .arr _ => sameRef
  | .obj _, .obj _ => sameRef
  | _, _ => false

/-- The call `items.filter(i => i.id !== item.id)` of `doAction`, where `item`
is the entry at position `k` and `id` is `item.id`; `j` is the position of the
head of the list. The entries of a parsed response share no reference, so
`i.id` and `item.id` are the same reference only when `i` is `item`. -/
def filterOthers (h : Host) (k : Nat) (id : JsVal) : Nat → List JsVal → Except String (List JsVal)
  | _, [] => .ok []
  | j, i :: rest =>
    match getProp h i "id" with
    | .error message => .error message
    | .ok iid =>
      match filterOthers h k id (j + 1) rest with
      | .error message => .error message
      | .ok kept => .ok (if !strictEq (decide (j = k)) iid id then i :: kept else kept)

/-- The handler `doAction(item, label)` bound to the row at position `k` of
the rendered array `items` (`item` is `items[k]`). -/
def doAction (h : Host) (backend : Backend) (items : List JsVal) (k : Nat) (label : String) :
    List Effect :=
  match items[k]? with
  | none => []
  | some item =>
    match getProp h item "id" with
    | .error message => [.alert ("Failed to submit review: " ++ message)]
    | .ok id =>
      let call := submitReview h backend (.obj [("id", id), ("label", .str label)])
      call.1 ++
        match call.2 with
        | .error message => [.alert ("Failed to submit review: " ++ message)]
        | .ok _ =>
          match filterOthers h k id 0 items with
          | .error message => [.alert ("Failed to submit review: " ++ message)]
          | .ok kept => [.setItems (.arr kept)]

/-! ## `pages/ModelManager.jsx` -/

/-- The state of `ModelManager`: `models` (`[]` at first), `file` (`null` or
the picked `File`), `version` and `threshold`. -/
structure ModelManagerState where
  models : JsVal
  file : Option JsFile
  version : String
  threshold : ℚ

/-- The function `loadModels()`. -/
def loadModels (h : Host) (backend : Backend) : List Effect :=
  let call := getModels h backend
  call.1 ++
    match call.2 with
    | .error message => [.consoleError message]
    | .ok list => [.setModels (list.or (.arr []))]

/-- The handler `handleUpload(e)` on the `file`, `version` and `threshold`
state. The call `loadModels()` at its end is not awaited; its effects follow
those of the handler. -/
def handleUpload (h : Host) (backend : Backend) (file : Option JsFile) (version : String)
    (threshold : ℚ) : List Effect :=
  .preventDefault ::
    match file with
    | none => [.alert "Provide version and .joblib file"]
    | some f =>
      if !(JsVal.str version).truthy then [.alert "Provide version and .joblib file"]
      else
        let call := uploadModel h backend f version (some threshold)
        call.1 ++
          match call.2 with
          | .error message => [.alert ("Upload failed: " ++ message)]
          | .ok _ =>
            [.alert "Uploaded", .setFile none, .setVersion ""] ++ loadModels h backend

/-- The state of `ModelManager` after an effect. -/
def ModelManager.step (s : ModelManagerState) : Effect → ModelManagerState
  | .setModels v => { s with models := v }
  | .setFile f => { s with file := f }
  | .setVersion v => { s with version := v }
  | _ => s

/-- The state of `ModelManager` after the effects of a handler. -/
def ModelManager.run (s : ModelManagerState) (effects : List Effect) : ModelManagerState :=
  effects.foldl ModelManager.step s

/-! ## `pages/Dashboard.jsx`

The histogram computes with JavaScript numbers, that is with IEEE 754
binary64 values under round-to-nearest, ties-to-even. `F64` embeds them: a
finite double by its exact rational value, the two infinities and `NaN`. Each
arithmetic operation is the exact operation followed by `F64.ofRat`, the
rounding to the nearest double.

The sign of a zero is not modelled. It could only be seen by dividing by a
zero, and the one division of the component is by `total || 1`, which is never
a zero; a bar of height `-0` is styled `height: 0%` like a bar of height `0`. -/

/-- The integer nearest to `x`, a tie going to the even one. -/
def roundHalfEven (x : ℚ) : ℤ :=
  if x - ⌊x⌋ < 1 / 2 then ⌊x⌋
  else if 1 / 2 < x - ⌊x⌋ then ⌊x⌋ + 1
  else if ⌊x⌋ % 2 = 0 then ⌊x⌋ else ⌊x⌋ + 1

/-- A JavaScript number: `finite q` is the finite double of value `q`. -/
inductive F64 where
  | finite (q : ℚ)
  | posInf
  | negInf
  | nan

/-- The exponent `e` of the doubles next to `a`: `2 ^ e ≤ a < 2 ^ (e + 1)` in
the normal range, `-1022` below it (the subnormal doubles). -/
def binadeExp (a : ℚ) : ℤ :=
  max (Int.log 2 a) (-1022)

namespace F64

/-- The double nearest to `a ≥ 0`: the doubles next to `a` are the multiples
of `2 ^ (e - 52)`, and the nearest multiple is taken, a tie going to the even
one; from `2 ^ 1024` on the result is `Infinity`. -/
def roundNonneg (a : ℚ) : F64 :=
  if (roundHalfEven (a / 2 ^ (binadeExp a - 52)) : ℚ) * 2 ^ (binadeExp a - 52) < 2 ^ 1024 then
    .finite ((roundHalfEven (a / 2 ^ (binadeExp a - 52)) : ℚ) * 2 ^ (binadeExp a - 52))
  else .posInf

/-- The operator `-x`. -/
def neg : F64 → F64
  | finite q => finite (-q)
  | posInf => negInf
  | negInf => posInf
  | nan => nan

/-- The double nearest to `q`. -/
def ofRat (q : ℚ) : F64 :=
  if q < 0 then (roundNonneg (-q)).neg else roundNonneg q

/-- ToBoolean of a number: `0` and `NaN` are falsy. -/
def truthy : F64 → Bool
  | finite q => decide (q ≠ 0)
  | posInf => true
  | negInf => true
  | nan => false

/-- The operator `x + y` on numbers. -/
def add : F64 → F64 → F64
  | nan, _ => nan
  | _, nan => nan
  | posInf, negInf => nan
  | negInf, posInf => nan
  | posInf, _ => posInf
  | _, posInf => posInf
  | negInf, _ => negInf
  | _, negInf => negInf
  | finite a, finite b => ofRat (a + b)

/-- The product of an infinity, positive or not, and `y`. -/
def mulInf (positive : Bool) : F64 → F64
  | finite q => if q = 0 then nan else if decide (0 < q) = positive then posInf else negInf
  | posInf => if positive then posInf else negInf
  | negInf => if positive then negInf else posInf
  | nan => nan

/-- The operator `x * y`. -/
def mul : F64 → F64 → F64
  | finite a, finite b => ofRat (a * b)
  | posInf, y => mulInf true y
  | negInf, y => mulInf false y
  | x, posInf => mulInf true x
  | x, negInf => mulInf false x
  | nan, _ => nan
  | _, nan => nan

/-- The operator `x / y`. A zero divisor is taken as `+0`; the component never
divides by a zero. -/
def div : F64 → F64 → F64
  | nan, _ => nan
  | _, nan => nan
  | finite a, finite b =>
    if b = 0 then (if a = 0 then nan else if 0 < a then posInf else negInf)
    else ofRat (a / b)
  | finite _, posInf => finite 0
  | finite _, negInf => finite 0
  | posInf, finite b => if 0 ≤ b then posInf else negInf
  | negInf, finite b => if 0 ≤ b then negInf else posInf
  | posInf, posInf => nan
  | posInf, negInf => nan
  | negInf, posInf => nan
  | negInf, negInf => nan

/-- Whether a number is `0` or above (`Infinity` included). -/
def isNonneg : F64 → Bool
  | finite q => decide (0 ≤ q)
  | posInf => true
  | _ => false

end F64

/-- A histogram bucket, as the comment at the head of `ConfidenceHistogram`
describes it: `[{low, high, count}, ...] or array of counts`. -/
inductive Bucket where
  | bare (count : F64)
  | record (low : Option ℚ) (high : Option ℚ) (count : F64)

/-- The expression `b.count ?? b`. -/
def Bucket.count : Bucket → F64
  | .bare n => n
  | .record _ _ n => n

/-- The function `Math.round`: the nearest integer, a tie going up; `NaN` and
the infinities are returned as they are. -/
def mathRound : F64 → F64
  | .finite p => .finite ⌊p + 1 / 2⌋
  | v => v

/-- The value `total` (line 85): the counts added one after the other to `0`. -/
def histogramTotal (buckets : List Bucket) : F64 :=
  buckets.foldl (fun s b => F64.add s b.count) (.finite 0)

/-- The divisor `total || 1` (line 90). -/
def histogramDivisor (total : F64) : F64 :=
  if total.truthy then total else .finite 1

/-- The value `h` of one bar (line 90); the bar is styled `height: h%`. -/
def barHeight (total : F64) (b : Bucket) : F64 :=
  mathRound (F64.mul (F64.div b.count (histogramDivisor total)) (.finite 100))

/-- The component `ConfidenceHistogram`: `none` is the "No data" placeholder,
`some hs` is one bar per bucket with the heights `hs`, in percent. -/
def ConfidenceHistogram (buckets : List Bucket) : Option (List F64) :=
  if buckets.length = 0 then none
  else some (buckets.map (barHeight (histogramTotal buckets)))

/-- The fraction of the full height at which a bar of height `h%` is drawn. -/
def heightFraction (h : ℤ) : ℚ :=
  h / 100

/-! ## Sample data

A concrete engine, backends and values on which the statements below are
instantiated. -/

/-- The body of a rejected prediction. -/
def detailBody : String :=
  "\x7b\"detail\":\"Text is required\"\x7d"

/-- The body of scenario 1 of the specification. -/
def predictionBody : String :=
  "\x7b\"label\":\"spam\",\"spam_probability\":0.93,\"model_version\":\"v1\"\x7d"

/-- The value of `predictionBody`. -/
def predictionValue : JsVal :=
  .obj [("label", .str "spam"), ("spam_probability", .num (93 / 100)),
    ("model_version", .str "v1")]

/-- The body of a prediction that carries an explanation. -/
def explainedBody : String :=
  "\x7b\"label\":\"spam\",\"explanation\":\x7b\"feature_importances\":[]\x7d\x7d"

/-- The explanation payload of `explainedBody`. -/
def explainedPayload : JsVal :=
  .obj [("feature_importances", .arr [])]

/-- The value of `explainedBody`. -/
def explainedValue : JsVal :=
  .obj [("label", .str "spam"), ("explanation", explainedPayload)]

/-- The review item of scenario 2 of the specification. -/
def lunchItem : JsVal :=
  .obj [("id", .str "a1"), ("text", .str "Hey are we still on for lunch?"),
    ("score", .num (12 / 100))]

/-- A second review item. -/
def prizeItem : JsVal :=
  .obj [("id", .str "b2"), ("text", .str "Free entry! Claim prize now"),
    ("score", .num (55 / 100))]

/-- An engine whose `JSON.parse` knows the texts used below, each with the
value `JSON.parse` gives it, and rejects the texts used below that are not
JSON. -/
def sampleHost : Host where
  parse := fun s =>
    if s = "\x7b\x7d" then .ok (.obj [])
    else if s = detailBody then .ok (.obj [("detail", .str "Text is required")])
    else if s = predictionBody then .ok predictionValue
    else if s = explainedBody then .ok explainedValue
    else if s = "null" then .ok .null
    else .error "Unexpected token"
  stringify := fun v =>
    match v with
    | .obj [] => "\x7b\x7d"
    | .null => "null"
    | _ => "[value]"
  toStr := fun v =>
    match v with
    | .str s => s
    | _ => "[object Object]"
  typeErrorMsg := fun _ key => "Cannot read properties of null (reading " ++ key ++ ")"

/-- A backend that acknowledges every request with an empty body. -/
def ackBackend : Backend :=
  fun _ => .response true ""

/-- A backend that rejects every request with status 422 and `detailBody`. -/
def rejectBackend : Backend :=
  fun _ => .response false detailBody

/-- A backend that answers every request with `explainedBody`. -/
def explainBackend : Backend :=
  fun _ => .response true explainedBody

/-- A backend that answers every request with `predictionBody`. -/
def spamBackend : Backend :=
  fun _ => .response true predictionBody

/-- A picked artifact. -/
def sampleFile : JsFile :=
  { name := "model.joblib" }

/-- A state of `ModelManager` with one listed model and a picked artifact but
no version typed. -/
def sampleManagerState : ModelManagerState :=
  { models := .arr [.obj [("version", .str "v1")]], file := some sampleFile, version := "",
    threshold := 3 / 5 }

/-! ## Review workflow: `doAction` -/

theorem strictEq_self (a : JsVal) : strictEq true a a = true := by
  cases a <;> simp [strictEq]

theorem strictEq_of_ne {a b : JsVal} (hab : a ≠ b) : strictEq false a b = false := by
  cases a <;> cases b <;> simp_all [strictEq]

theorem getProp_of_readable (h : Host) {v : JsVal} (hv : v.isNullish = false) (key : String) :
    getProp h v key = .ok (v.field key) := by
  simp [getProp, hv]

/-- Entries away from position `k` whose ids differ from `id` are all kept. -/
theorem filterOthers_keep (h : Host) (k : Nat) (id : JsVal) (l : List JsVal) (j : Nat)
    (hread : ∀ i ∈ l, i.isNullish = false) (hne : ∀ i ∈ l, i.field "id" ≠ id)
    (hidx : k < j ∨ j + l.length ≤ k) : filterOthers h k id j l = .ok l := by
  induction l generalizing j with
  | nil => rfl
  | cons x rest ih =>
    have hx : x.isNullish = false := hread x (List.mem_cons_self _ _)
    have hjk : j ≠ k := by
      rcases hidx with hlt | hle
      · omega
      · simp only [List.length_cons] at hle
        omega
    have hrest : filterOthers h k id (j + 1) rest = .ok rest := by
      apply ih
      · intro i hi
        exact hread i (List.mem_cons_of_mem _ hi)
      · intro i hi
        exact hne i (List.mem_cons_of_mem _ hi)
      · rcases hidx with hlt | hle
        · left
          omega
        · right
          simp only [List.length_cons] at hle
          omega
    have hxid : strictEq false (x.field "id") id = false :=
      strictEq_of_ne (hne x (List.mem_cons_self _ _))
    simp [filterOthers, getProp_of_readable h hx, hrest, hjk, hxid]

/-- The filter of `doAction` drops the entry at position `k` and nothing else,
when no other entry carries its id. -/
theorem filterOthers_erase (h : Host) (k : Nat) (item : JsVal) (pre post : List JsVal) (j : Nat)
    (hk : k = j + pre.length)
    (hread : ∀ i ∈ pre ++ item :: post, i.isNullish = false)
    (hpre : ∀ i ∈ pre, i.field "id" ≠ item.field "id")
    (hpost : ∀ i ∈ post, i.field "id" ≠ item.field "id") :
    filterOthers h k (item.field "id") j (pre ++ item :: post) = .ok (pre ++ post) := by
  induction pre generalizing j with
  | nil =>
    have hitem : item.isNullish = false := hread item (by simp)
    have hjk : k = j := by simpa using hk
    subst hjk
    have hrest : filterOthers h k (item.field "id") (k + 1) post = .ok post := by
      apply filterOthers_keep
      · intro i hi
        exact hread i (by simp [hi])
      · exact hpost
      · left
        omega
    simp [filterOthers, getProp_of_readable h hitem, hrest, strictEq_self]
  | cons x rest ih =>
    have hx : x.isNullish = false := hread x (by simp)
    have hjk : j ≠ k := by
      simp only [List.length_cons] at hk
      omega
    have hrest : filterOthers h k (item.field "id") (j + 1) (rest ++ item :: post)
        = .ok (rest ++ post) := by
      apply ih
      · simp only [List.length_cons] at hk
        omega
      · intro i hi
        exact hread i (by
          simp only [List.cons_append, List.mem_cons]
          right
          simpa using hi)
      · intro i hi
        exact hpre i (List.mem_cons_of_mem _ hi)
    have hxid : strictEq false (x.field "id") (item.field "id") = false :=
      strictEq_of_ne (hpre x (List.mem_cons_self _ _))
    simp [filterOthers, getProp_of_readable h hx, hrest, hjk, hxid]

/-- Splitting a list at a valid position. -/
theorem split_at_index (items : List JsVal) (k : Nat) (item : JsVal)
    (hitem : items[k]? = some item) :
    items = items.take k ++ item :: items.drop (k + 1) ∧ (items.take k).length = k := by
  obtain ⟨hk, hget⟩ := List.getElem?_eq_some_iff.mp hitem
  constructor
  · rw [← hget, List.getElem_cons_drop items k hk, List.take_append_drop]
  · simp [List.length_take]
    omega

/-- **C1** (`ReviewQueue.doAction`, success). For every working set `items`
whose entries are readable and whose ids are pairwise distinct, every entry
`item = items[k]` and every label: when `submitReview` succeeds, `doAction`
issues the one request and then calls `setItems` once, and the new working set
is `pre ++ post` where `items = pre ++ item :: post`: the entry at position `k`
is removed, every other entry is kept unchanged and in order, and none of the
kept entries carries the id of `item`. -/
theorem doAction_success_removes_exactly_item (h : Host) (backend : Backend)
    (items : List JsVal) (k : Nat) (label : String) (item ack : JsVal)
    (hitem : items[k]? = some item)
    (hread : ∀ i ∈ items, i.isNullish = false)
    (huniq : (items.map (fun i => i.field "id")).Nodup)
    (hok : (submitReview h backend
      (.obj [("id", item.field "id"), ("label", .str label)])).2 = .ok ack) :
    doAction h backend items k label
        = [.fetch (submitReviewRequest (.obj [("id", item.field "id"), ("label", .str label)])),
           .setItems (.arr (items.eraseIdx k))]
      ∧ ReviewQueue.run (.arr items) (doAction h backend items k label)
          = .arr (items.eraseIdx k)
      ∧ ∃ pre post, items = pre ++ item :: post ∧ pre.length = k
          ∧ items.eraseIdx k = pre ++ post
          ∧ ∀ i ∈ pre ++ post, i.field "id" ≠ item.field "id" := by
  obtain ⟨hsplit, hlen⟩ := split_at_index items k item hitem
  generalize hpre : items.take k = pre at hsplit hlen
  generalize hpost : items.drop (k + 1) = post at hsplit
  have hitemRead : item.isNullish = false := hread item (by rw [hsplit]; simp)
  rw [hsplit, List.map_append, List.map_cons] at huniq
  have hnd := List.nodup_append.mp huniq
  have hpreNe : ∀ i ∈ pre, i.field "id" ≠ item.field "id" := by
    intro i hi heq
    have h1 : i.field "id" ∈ pre.map (fun i => i.field "id") := List.mem_map_of_mem _ hi
    have h2 : i.field "id" ∈ (item.field "id") :: post.map (fun i => i.field "id") := by
      rw [heq]
      exact List.mem_cons_self _ _
    exact hnd.2.2 h1 h2
  have hpostNe : ∀ i ∈ post, i.field "id" ≠ item.field "id" := by
    intro i hi heq
    have h1 : i.field "id" ∈ post.map (fun i => i.field "id") := List.mem_map_of_mem _ hi
    rw [heq] at h1
    exact (List.nodup_cons.mp hnd.2.1).1 h1
  have herase : items.eraseIdx k = pre ++ post := by
    rw [hsplit, ← hlen]
    simp [List.eraseIdx_append_of_length_le]
  have hfilter : filterOthers h k (item.field "id") 0 items = .ok (pre ++ post) := by
    rw [hsplit]
    apply filterOthers_erase
    · omega
    · intro i hi
      exact hread i (by rw [hsplit]; exact hi)
    · exact hpreNe
    · exact hpostNe
  have htrace : doAction h backend items k label
      = [.fetch (submitReviewRequest (.obj [("id", item.field "id"), ("label", .str label)])),
         .setItems (.arr (items.eraseIdx k))] := by
    simp only [submitReview] at hok
    simp [doAction, hitem, getProp_of_readable h hitemRead, submitReview, hok, hfilter, herase]
  refine ⟨htrace, ?_, pre, post, hsplit, hlen, herase, ?_⟩
  · rw [htrace]
    rfl
  · intro i hi
    rcases List.mem_append.mp hi with hi | hi
    · exact hpreNe i hi
    · exact hpostNe i hi

/-- Scenario 2 of the specification, with a second entry in the queue: marking
`lunchItem` as ham leaves exactly `prizeItem`. -/
theorem doAction_success_removes_exactly_item_witness :
    doAction sampleHost ackBackend [lunchItem, prizeItem] 0 "ham"
        = [.fetch (submitReviewRequest (.obj [("id", .str "a1"), ("label", .str "ham")])),
           .setItems (.arr [prizeItem])]
      ∧ ReviewQueue.run (.arr [lunchItem, prizeItem])
          (doAction sampleHost ackBackend [lunchItem, prizeItem] 0 "ham") = .arr [prizeItem] := by
  have hthm := doAction_success_removes_exactly_item sampleHost ackBackend
    [lunchItem, prizeItem] 0 "ham" lunchItem (.obj []) rfl
    (by simp [lunchItem, prizeItem, JsVal.isNullish])
    (by simp [lunchItem, prizeItem, JsVal.field, List.lookup])
    (by simp [submitReview, request, requestTry, ackBackend, sampleHost])
  exact ⟨hthm.1, hthm.2.1⟩

/-- Replaying effects none of which is `setItems` leaves the working set as
it was. -/
theorem ReviewQueue.run_of_no_setItems (effects : List Effect)
    (hno : ∀ e ∈ effects, e.isSetItems = false) (workingSet : JsVal) :
    ReviewQueue.run workingSet effects = workingSet := by
  induction effects with
  | nil => rfl
  | cons e rest ih =>
    have he : e.isSetItems = false := hno e (List.mem_cons_self _ _)
    have hstep : ReviewQueue.step workingSet e = workingSet := by
      cases e <;> simp_all [ReviewQueue.step, Effect.isSetItems]
    have hrest := ih (fun x hx => hno x (List.mem_cons_of_mem _ hx))
    simpa [ReviewQueue.run, List.foldl_cons, hstep] using hrest

/-- The shapes the effects of `doAction` can take: nothing (no such row), one
alert (the id could not be read), the request followed by one alert, or the
request followed by one `setItems`, the last only after `submitReview`
resolved. -/
theorem doAction_shape (h : Host) (backend : Backend) (items : List JsVal) (k : Nat)
    (label : String) :
    doAction h backend items k label = []
    ∨ (∃ message, doAction h backend items k label = [.alert message])
    ∨ (∃ item message, items[k]? = some item ∧ doAction h backend items k label
        = [.fetch (submitReviewRequest (.obj [("id", item.field "id"), ("label", .str label)])),
           .alert message])
    ∨ (∃ item ack kept, items[k]? = some item
        ∧ (submitReview h backend
            (.obj [("id", item.field "id"), ("label", .str label)])).2 = .ok ack
        ∧ doAction h backend items k label
          = [.fetch (submitReviewRequest (.obj [("id", item.field "id"), ("label", .str label)])),
             .setItems (.arr kept)]) := by
  unfold doAction
  cases hitem : items[k]? with
  | none => simp
  | some item =>
    cases hnull : item.isNullish with
    | true => simp [getProp, hnull]
    | false =>
      simp only [getProp, hnull, submitReview]
      cases hreq : request h (backend (submitReviewRequest
          (.obj [("id", item.field "id"), ("label", .str label)]))) with
      | error message => simp [hreq]
      | ok ack =>
        cases hf : filterOthers h k (item.field "id") 0 items with
        | error message => simp [hreq, hf]
        | ok kept => simp [hreq, hf]

/-- **C2** (`ReviewQueue.doAction`, failure). For every working set, row and
label: when `submitReview` fails, `doAction` calls `setItems` not at all, so
the working set after it is the working set before it; and in every run of
`doAction`, a call of `setItems` comes only after the request was issued and
`submitReview` resolved (no removal before the backend acknowledged). -/
theorem doAction_failure_leaves_working_set (h : Host) (backend : Backend)
    (items : List JsVal) (k : Nat) (label : String) :
    (∀ item message, items[k]? = some item →
      (submitReview h backend
        (.obj [("id", item.field "id"), ("label", .str label)])).2 = .error message →
      (∀ e ∈ doAction h backend items k label, e.isSetItems = false)
        ∧ ∀ workingSet, ReviewQueue.run workingSet (doAction h backend items k label)
            = workingSet)
    ∧ (∀ pre v post, doAction h backend items k label = pre ++ .setItems v :: post →
        ∃ item ack, items[k]? = some item
          ∧ (submitReview h backend
              (.obj [("id", item.field "id"), ("label", .str label)])).2 = .ok ack
          ∧ pre = [.fetch (submitReviewRequest
              (.obj [("id", item.field "id"), ("label", .str label)]))]
          ∧ post = []) := by
  have hshape := doAction_shape h backend items k label
  constructor
  · intro item message hitem hfail
    have hno : ∀ e ∈ doAction h backend items k label, e.isSetItems = false := by
      rcases hshape with h0 | ⟨m, h1⟩ | ⟨it, m, _, h2⟩ | ⟨it, ack, kept, hit, hok, _⟩
      · simp [h0]
      · simp [h1, Effect.isSetItems]
      · simp [h2, Effect.isSetItems]
      · rw [hitem] at hit
        cases hit
        rw [hfail] at hok
        cases hok
    exact ⟨hno, ReviewQueue.run_of_no_setItems _ hno⟩
  · intro pre v post hsplit
    rcases hshape with h0 | ⟨m, h1⟩ | ⟨it, m, _, h2⟩ | ⟨it, ack, kept, hit, hok, h3⟩
    · rw [h0] at hsplit
      simp at hsplit
    · rw [h1] at hsplit
      rcases pre with _ | ⟨p, _ | ⟨q, pre⟩⟩ <;> simp at hsplit
    · rw [h2] at hsplit
      rcases pre with _ | ⟨p, _ | ⟨q, _ | ⟨r, pre⟩⟩⟩ <;> simp at hsplit
    · refine ⟨it, ack, hit, hok, ?_⟩
      rw [h3] at hsplit
      rcases pre with _ | ⟨p, _ | ⟨q, _ | ⟨r, pre⟩⟩⟩ <;> simp at hsplit
      obtain ⟨hp, _, hpost⟩ := hsplit
      simp [← hp, ← hpost]

/-- A rejected label: the backend answers 422 and both entries stay. -/
theorem doAction_failure_leaves_working_set_witness :
    (∀ e ∈ doAction sampleHost rejectBackend [lunchItem, prizeItem] 0 "ham",
        e.isSetItems = false)
      ∧ ReviewQueue.run (.arr [lunchItem, prizeItem])
          (doAction sampleHost rejectBackend [lunchItem, prizeItem] 0 "ham")
        = .arr [lunchItem, prizeItem] := by
  have hthm := (doAction_failure_leaves_working_set sampleHost rejectBackend
    [lunchItem, prizeItem] 0 "ham").1 lunchItem detailBody rfl
    (by simp [submitReview, request, requestTry, rejectBackend, sampleHost, detailBody,
      getProp, JsVal.isNullish, JsVal.field, JsVal.truthy, List.lookup])
  exact ⟨hthm.1, hthm.2 _⟩

/-! ## Prediction workflow: `handlePredict` -/

theorem string_mk_eq_empty (l : List Char) : (String.mk l = "") ↔ l = [] := by
  constructor
  · intro hl
    have hdata := congrArg String.data hl
    simpa using hdata
  · intro hl
    subst hl
    rfl

/-- The trimmed text is empty exactly when every character of the text is one
that `trim` strips. -/
theorem jsTrim_eq_empty_iff (text : String) :
    jsTrim text = "" ↔ ∀ c ∈ text.data, isJsWhiteSpace c = true := by
  unfold jsTrim
  rw [string_mk_eq_empty, List.reverse_eq_nil_iff, List.dropWhile_eq_nil_iff]
  constructor
  · intro hall
    by_cases hd : text.data.dropWhile isJsWhiteSpace = []
    · exact List.dropWhile_eq_nil_iff.mp hd
    · have hhead := List.head_dropWhile_not isJsWhiteSpace text.data hd
      have hmem : (text.data.dropWhile isJsWhiteSpace).head hd
          ∈ (text.data.dropWhile isJsWhiteSpace).reverse :=
        List.mem_reverse.mpr (List.head_mem hd)
      rw [hall _ hmem] at hhead
      cases hhead
  · intro hall x hx
    have hd : text.data.dropWhile isJsWhiteSpace = [] := List.dropWhile_eq_nil_iff.mpr hall
    rw [hd] at hx
    simp at hx

/-- Replaying effects none of which is a callback leaves `Home` as it was. -/
theorem Home.run_of_no_callback (effects : List Effect)
    (hno : ∀ e ∈ effects, e.isCallback = false) (s : HomeState) :
    Home.run s effects = s := by
  induction effects with
  | nil => rfl
  | cons e rest ih =>
    have he : e.isCallback = false := hno e (List.mem_cons_self _ _)
    have hstep : Home.step s e = s := by
      cases e <;> simp_all [Home.step, Effect.isCallback]
    have hrest := ih (fun x hx => hno x (List.mem_cons_of_mem _ hx))
    simpa [Home.run, List.foldl_cons, hstep] using hrest

/-- **C3** (`PredictForm.handlePredict`, local validation). For every text
that is empty or made only of characters `trim` strips (ECMAScript white space
and line terminators), and for either entry point, `handlePredict` does nothing
but show the alert: it issues no request, calls neither `onResult` nor
`onExplain`, and leaves the state of `Home` as it was. -/
theorem handlePredict_blank_issues_no_request (h : Host) (backend : Backend) (text : String)
    (threshold : ℚ) (explain : Bool)
    (hblank : ∀ c ∈ text.data, isJsWhiteSpace c = true) :
    handlePredict h backend text threshold explain = [.alert "Enter a message to predict."]
      ∧ (∀ e ∈ handlePredict h backend text threshold explain,
          e.isFetch = false ∧ e.isCallback = false)
      ∧ ∀ s, Home.run s (handlePredict h backend text threshold explain) = s := by
  have htrim : jsTrim text = "" := (jsTrim_eq_empty_iff text).mpr hblank
  have htrace : handlePredict h backend text threshold explain
      = [.alert "Enter a message to predict."] := by
    simp [handlePredict, htrim, JsVal.truthy]
  refine ⟨htrace, ?_, ?_⟩
  · intro e he
    rw [htrace] at he
    simp at he
    subst he
    exact ⟨rfl, rfl⟩
  · intro s
    rw [htrace]
    rfl

/-- A text of a space, a tab and a line feed, on either button. -/
theorem handlePredict_blank_issues_no_request_witness :
    (handlePredict sampleHost spamBackend " \t\n" (1 / 2) false
        = [.alert "Enter a message to predict."])
      ∧ (handlePredict sampleHost spamBackend " \t\n" (1 / 2) true
        = [.alert "Enter a message to predict."]) :=
  ⟨(handlePredict_blank_issues_no_request sampleHost spamBackend " \t\n" (1 / 2) false
      (by decide)).1,
   (handlePredict_blank_issues_no_request sampleHost spamBackend " \t\n" (1 / 2) true
      (by decide)).1⟩

/-! ## API contract layer: `request` -/

/-- On a non-success response the `try` block of `request` always throws: a
`SyntaxError` or `TypeError`, or the `Error` of line 10. -/
theorem requestTry_failure_throws (h : Host) (text : String) :
    ∃ message, requestTry h false text = .error message := by
  cases htry : requestTry h false text with
  | error message => exact ⟨message, rfl⟩
  | ok json =>
    exfalso
    unfold requestTry at htry
    split at htry
    · cases htry
    · simp only [Bool.not_false, if_true] at htry
      split at htry
      · cases htry
      · split at htry
        · cases htry
        · split at htry <;> cases htry

/-- On a non-success response with a non-empty body, whatever the `try` block
throws is caught by the `catch` of the same statement, which throws the raw
body text instead. -/
theorem request_failure_message (h : Host) (text : String) (hne : text ≠ "") :
    request h (.response false text) = .error text := by
  obtain ⟨message, htry⟩ := requestTry_failure_throws h text
  simp [request, htry, hne]

/-- On a non-success response `request` rejects. -/
theorem request_failure_raises (h : Host) (text : String) :
    ∃ message, request h (.response false text) = .error message := by
  obtain ⟨message, htry⟩ := requestTry_failure_throws h text
  exact ⟨if text = "" then message else text, by simp [request, htry]⟩

/-- **C4** (`request`, non-success response): evaluation at the failing input.
The response has status 422 and the body `detailBody`, a JSON object whose
`detail` field is the string `Text is required`. `request` rejects, but the
message of the error is the raw body text, not the value of `detail`: the
`Error` thrown on line 10 is caught on line 12 and replaced on line 13. The
same holds for every engine and every non-empty body of a non-success
response; that `request` rejects on every non-success response does hold. -/
theorem request_failure_ignores_detail :
    sampleHost.parse detailBody = .ok (.obj [("detail", .str "Text is required")])
      ∧ requestTry sampleHost false detailBody = .error "Text is required"
      ∧ request sampleHost (.response false detailBody) = .error detailBody
      ∧ detailBody ≠ "Text is required"
      ∧ (∀ (h : Host) (text : String), text ≠ "" →
          request h (.response false text) = .error text)
      ∧ ∀ (h : Host) (text : String), ∃ message,
          request h (.response false text) = .error message := by
  refine ⟨?_, ?_, ?_, ?_, ?_, request_failure_raises⟩
  · simp [sampleHost, detailBody]
  · simp [requestTry, sampleHost, detailBody, getProp, JsVal.isNullish, JsVal.field,
      JsVal.truthy, List.lookup]
  · exact request_failure_message sampleHost detailBody (by decide)
  · decide
  · exact request_failure_message

/-- **C5** (`request`, success response). For every engine whose `JSON.parse`
reads the text of the empty object as the empty object, and every body text of
a success response: `request` resolves (it never rejects); it resolves to the
parsed value when the body is JSON, and to the empty object when the body is
empty or is not JSON. -/
theorem request_success_never_raises (h : Host) (text : String)
    (hempty : h.parse "\x7b\x7d" = .ok (.obj [])) :
    (∃ v, request h (.response true text) = .ok v)
      ∧ (∀ v, text ≠ "" → h.parse text = .ok v → request h (.response true text) = .ok v)
      ∧ (text = "" → request h (.response true text) = .ok (.obj []))
      ∧ (∀ message, h.parse text = .error message →
          request h (.response true text) = .ok (.obj [])) := by
  have hemptyCase : text = "" → request h (.response true text) = .ok (.obj []) := by
    intro ht
    subst ht
    simp [request, requestTry, hempty]
  refine ⟨?_, ?_, hemptyCase, ?_⟩
  · by_cases ht : text = ""
    · exact ⟨_, hemptyCase ht⟩
    · cases hp : h.parse text with
      | error message => exact ⟨.obj [], by simp [request, requestTry, ht, hp]⟩
      | ok v => exact ⟨v, by simp [request, requestTry, ht, hp]⟩
  · intro v ht hp
    simp [request, requestTry, ht, hp]
  · intro message hp
    by_cases ht : text = ""
    · exact hemptyCase ht
    · simp [request, requestTry, ht, hp]

/-- A success response with a JSON body, with an empty body and with a body
that is not JSON. -/
theorem request_success_never_raises_witness :
    request sampleHost (.response true predictionBody) = .ok predictionValue
      ∧ request sampleHost (.response true "") = .ok (.obj [])
      ∧ request sampleHost (.response true "<html>Bad Gateway</html>") = .ok (.obj []) :=
  ⟨(request_success_never_raises sampleHost predictionBody rfl).2.1 predictionValue
      (by decide) (by simp [sampleHost, predictionBody, detailBody]),
   (request_success_never_raises sampleHost "" rfl).2.2.1 rfl,
   (request_success_never_raises sampleHost "<html>Bad Gateway</html>" rfl).2.2.2
      "Unexpected token" (by simp [sampleHost, predictionBody, detailBody, explainedBody])⟩

/-! ## Review workflow: `loadQueue` -/

/-- What `loadQueue` does when `getReviewQueue` resolves to a value whose
properties can be read. -/
theorem loadQueue_of_response (h : Host) (backend : Backend) (resp : JsVal)
    (hresp : (getReviewQueue h backend 50).2 = .ok resp) (hread : resp.isNullish = false) :
    loadQueue h backend
      = [.setLoading true, .fetch (reviewQueueRequest 50),
         .setItems (((resp.field "items").or resp).or (.arr [])), .setLoading false] := by
  simp only [getReviewQueue] at hresp
  simp [loadQueue, getReviewQueue, hresp, getProp, hread]

/-- **C6** (`ReviewQueue.loadQueue`): evaluation at the failing input. The
backend answers the queue request with a success status and an empty body, so
`request` resolves to the empty object. The empty object is truthy, so
`resp.items || resp || []` is the empty object itself and the fallback `[]` is
not reached: the working set after `loadQueue` is the object, which is not a
sequence. The two other cases of the claim hold for every engine and backend:
a bare array becomes the working set, and so does the `items` array of an
object. -/
theorem loadQueue_empty_object_is_not_a_sequence :
    (getReviewQueue sampleHost ackBackend 50).2 = .ok (.obj [])
      ∧ loadQueue sampleHost ackBackend
          = [.setLoading true, .fetch (reviewQueueRequest 50), .setItems (.obj []),
             .setLoading false]
      ∧ ReviewQueue.run (.arr []) (loadQueue sampleHost ackBackend) = .obj []
      ∧ (JsVal.obj []).isArray = false
      ∧ (∀ (h : Host) (backend : Backend) (workingSet : JsVal) (elems : List JsVal),
          (getReviewQueue h backend 50).2 = .ok (.arr elems) →
          ReviewQueue.run workingSet (loadQueue h backend) = .arr elems)
      ∧ (∀ (h : Host) (backend : Backend) (workingSet : JsVal)
          (fields : List (String × JsVal)) (elems : List JsVal),
          (getReviewQueue h backend 50).2 = .ok (.obj fields) →
          (JsVal.obj fields).field "items" = .arr elems →
          ReviewQueue.run workingSet (loadQueue h backend) = .arr elems) := by
  have hresp : (getReviewQueue sampleHost ackBackend 50).2 = .ok (.obj []) := by
    simp [getReviewQueue, request, requestTry, ackBackend, sampleHost]
  have htrace := loadQueue_of_response sampleHost ackBackend (.obj []) hresp rfl
  refine ⟨hresp, ?_, ?_, rfl, ?_, ?_⟩
  · rw [htrace]
    rfl
  · rw [htrace]
    rfl
  · intro h backend workingSet elems hok
    rw [loadQueue_of_response h backend (.arr elems) hok rfl]
    rfl
  · intro h backend workingSet fields elems hok hitems
    rw [loadQueue_of_response h backend (.obj fields) hok rfl, hitems]
    rfl

/-! ## Prediction workflow with the callbacks of `Home` -/

/-- The text has a character that `trim` keeps. -/
theorem jsTrim_truthy_of_nonblank (text : String)
    (hnonblank : ∃ c ∈ text.data, isJsWhiteSpace c = false) :
    (JsVal.str (jsTrim text)).truthy = true := by
  have hne : jsTrim text ≠ "" := by
    intro hempty
    obtain ⟨c, hc, hws⟩ := hnonblank
    rw [(jsTrim_eq_empty_iff text).mp hempty c hc] at hws
    cases hws
  simp [JsVal.truthy, hne]

/-- **C7** (`handlePredict`, failure). For every text with a character that
`trim` keeps and every state of `Home`: when `predict` rejects, `handlePredict`
issues the request, shows the alert with the message and calls neither
`onResult` nor `onExplain`; the result and the explanation held by `Home`
after it are the ones held before it. -/
theorem handlePredict_failure_keeps_previous_result (h : Host) (backend : Backend)
    (text : String) (threshold : ℚ) (explain : Bool) (message : String) (s : HomeState)
    (hnonblank : ∃ c ∈ text.data, isJsWhiteSpace c = false)
    (hfail : (predict h backend text (some threshold)).2 = .error message) :
    handlePredict h backend text threshold explain
        = [.setLoading true, .fetch (predictRequest text (some threshold)),
           .alert ("Prediction failed: " ++ message), .setLoading false]
      ∧ (∀ e ∈ handlePredict h backend text threshold explain, e.isCallback = false)
      ∧ Home.run s (handlePredict h backend text threshold explain) = s := by
  have htrace : handlePredict h backend text threshold explain
      = [.setLoading true, .fetch (predictRequest text (some threshold)),
         .alert ("Prediction failed: " ++ message), .setLoading false] := by
    simp only [predict] at hfail
    simp [handlePredict, jsTrim_truthy_of_nonblank text hnonblank, predict, hfail]
  have hno : ∀ e ∈ handlePredict h backend text threshold explain, e.isCallback = false := by
    intro e he
    rw [htrace] at he
    simp at he
    rcases he with he | he | he | he <;> subst he <;> rfl
  exact ⟨htrace, hno, Home.run_of_no_callback _ hno s⟩

/-- A rejected prediction after scenario 1: the spam result stays on screen. -/
theorem handlePredict_failure_keeps_previous_result_witness :
    Home.run { result := predictionValue, shap := .null }
        (handlePredict sampleHost rejectBackend "Hello" (1 / 2) false)
      = { result := predictionValue, shap := .null } :=
  (handlePredict_failure_keeps_previous_result sampleHost rejectBackend "Hello" (1 / 2) false
    detailBody { result := predictionValue, shap := .null } ⟨'H', by decide, by decide⟩
    (by simp [predict, request, requestTry, rejectBackend, sampleHost, detailBody,
      getProp, JsVal.isNullish, JsVal.field, JsVal.truthy, List.lookup])).2.2

/-- **C8** (`handlePredict`, success). For every text with a character that
`trim` keeps, every state of `Home` and every value `r` that `predict` resolves
to: afterwards the result of `Home` is `r`; its explanation is `r.explanation`
when that is a payload (an object or an array, and more generally any truthy
value), and is `null` when the response has no `explanation` field or a `null`
one (more generally a falsy one), whatever explanation was held before. -/
theorem handlePredict_success_propagates_result (h : Host) (backend : Backend)
    (text : String) (threshold : ℚ) (explain : Bool) (r : JsVal) (s : HomeState)
    (hnonblank : ∃ c ∈ text.data, isJsWhiteSpace c = false)
    (hok : (predict h backend text (some threshold)).2 = .ok r) :
    (Home.run s (handlePredict h backend text threshold explain)).result = r
      ∧ ((r.field "explanation").isStructured = true →
          (Home.run s (handlePredict h backend text threshold explain)).shap
            = r.field "explanation")
      ∧ ((r.field "explanation" = .undefined ∨ r.field "explanation" = .null) →
          (Home.run s (handlePredict h backend text threshold explain)).shap = .null)
      ∧ (Home.run s (handlePredict h backend text threshold explain)).shap
          = (if (r.field "explanation").truthy then r.field "explanation" else .null) := by
  simp only [predict] at hok
  have hfull : Home.run s (handlePredict h backend text threshold explain)
      = { result := r,
          shap := if (r.field "explanation").truthy then r.field "explanation" else .null } := by
    cases hnull : r.isNullish with
    | true =>
      have hfield : r.field "explanation" = .undefined := by
        cases r <;> simp_all [JsVal.isNullish, JsVal.field]
      have hne : jsTrim text ≠ "" := by
        simpa [JsVal.truthy] using jsTrim_truthy_of_nonblank text hnonblank
      simp [handlePredict, hne, predict, hok, getProp, hnull, hfield, JsVal.truthy, Home.run,
        Home.step]
    | false =>
      cases htruthy : (r.field "explanation").truthy with
      | true =>
        simp [handlePredict, jsTrim_truthy_of_nonblank text hnonblank, predict, hok, getProp,
          hnull, htruthy, Home.run, Home.step]
      | false =>
        simp [handlePredict, jsTrim_truthy_of_nonblank text hnonblank, predict, hok, getProp,
          hnull, htruthy, Home.run, Home.step]
  rw [hfull]
  refine ⟨rfl, ?_, ?_, rfl⟩
  · intro hstruct
    have htruthy : (r.field "explanation").truthy = true := by
      cases hf : r.field "explanation" <;> simp_all [JsVal.isStructured, JsVal.truthy]
    simp [htruthy]
  · intro habsent
    rcases habsent with hf | hf <;> simp [hf, JsVal.truthy]

/-- A prediction with an explanation replaces the result and the explanation;
a later prediction without one replaces the result and clears the explanation. -/
theorem handlePredict_success_propagates_result_witness :
    Home.run { result := .null, shap := .null }
        (handlePredict sampleHost explainBackend "Free entry!" (1 / 2) true)
      = { result := explainedValue, shap := explainedPayload }
    ∧ Home.run { result := explainedValue, shap := explainedPayload }
        (handlePredict sampleHost spamBackend "Free entry!" (1 / 2) false)
      = { result := predictionValue, shap := .null } := by
  have hfirst := handlePredict_success_propagates_result sampleHost explainBackend
    "Free entry!" (1 / 2) true explainedValue { result := .null, shap := .null }
    ⟨'F', by decide, by decide⟩
    (by simp [predict, request, requestTry, explainBackend, sampleHost, explainedBody,
      predictionBody, detailBody])
  have hsecond := handlePredict_success_propagates_result sampleHost spamBackend
    "Free entry!" (1 / 2) false predictionValue
    { result := explainedValue, shap := explainedPayload }
    ⟨'F', by decide, by decide⟩
    (by simp [predict, request, requestTry, spamBackend, sampleHost, explainedBody,
      predictionBody, detailBody])
  constructor
  · have hres := hfirst.1
    have hshap := hfirst.2.1 rfl
    revert hres hshap
    generalize Home.run _ _ = st
    intro hres hshap
    cases st
    simp_all [explainedValue, JsVal.field, List.lookup]
  · have hres := hsecond.1
    have hshap := hsecond.2.2.1 (Or.inl rfl)
    revert hres hshap
    generalize Home.run _ _ = st
    intro hres hshap
    cases st
    simp_all

/-! ## Metrics view: `ConfidenceHistogram` -/

/-- The nearest integer is within one half. -/
theorem roundHalfEven_sub_le (x : ℚ) : |(roundHalfEven x : ℚ) - x| ≤ 1 / 2 := by
  have h1 := Int.floor_le x
  have h2 := Int.lt_floor_add_one x
  unfold roundHalfEven
  split_ifs <;> rw [abs_le] <;> constructor <;> push_cast <;> linarith

/-- An integer strictly within one half of `x` is the nearest integer to `x`. -/
theorem roundHalfEven_eq_of_near (x : ℚ) (m : ℤ) (h : |x - m| < 1 / 2) : roundHalfEven x = m := by
  have hb := roundHalfEven_sub_le x
  rw [abs_lt] at h
  rw [abs_le] at hb
  have h1 : ((roundHalfEven x - m : ℤ) : ℚ) < 1 := by push_cast; linarith
  have h2 : (-1 : ℚ) < ((roundHalfEven x - m : ℤ) : ℚ) := by push_cast; linarith
  have h1' : roundHalfEven x - m < 1 := by exact_mod_cast h1
  have h2' : -1 < roundHalfEven x - m := by exact_mod_cast h2
  omega

/-- Rounding to the nearest integer does not go below an integer that is below. -/
theorem roundHalfEven_ge_of_le (x : ℚ) (k : ℤ) (h : (k : ℚ) ≤ x) : k ≤ roundHalfEven x := by
  have hb := roundHalfEven_sub_le x
  rw [abs_le] at hb
  have h1 : ((k - roundHalfEven x : ℤ) : ℚ) < 1 := by push_cast; linarith
  have h1' : k - roundHalfEven x < 1 := by exact_mod_cast h1
  omega

/-- The exponent is never below that of the subnormal doubles. -/
theorem binadeExp_ge (a : ℚ) : -1022 ≤ binadeExp a := le_max_right _ _

/-- In the normal range `2 ^ e` does not exceed the value. -/
theorem zpow_binadeExp_le (a : ℚ) (ha : 0 < a) :
    (2:ℚ) ^ binadeExp a ≤ a ∨ binadeExp a = -1022 := by
  unfold binadeExp
  rcases le_total (Int.log 2 a) (-1022) with h | h
  · right; exact max_eq_right h
  · left
    rw [max_eq_left h]
    simpa using Int.zpow_log_le_self (R := ℚ) (b := 2) (by norm_num) ha

/-- The power `2 ^ e` is `2 ^ 52` steps of `2 ^ (e - 52)`. -/
theorem zpow_binadeExp_split (e : ℤ) : (2:ℚ) ^ e = 2 ^ (e - 52) * 2 ^ (52 : ℕ) := by
  rw [← zpow_natCast, ← zpow_add₀ (by norm_num : (2:ℚ) ≠ 0)]
  congr 1
  omega

/-- The step between subnormal doubles. -/
theorem zpow_subnormal_quantum : (2:ℚ) ^ ((-1022 : ℤ) - 52) = 1 / 2 ^ (1074 : ℕ) := by
  rw [show ((-1022 : ℤ) - 52) = -((1074 : ℕ) : ℤ) by norm_num, zpow_neg, zpow_natCast, one_div]

/-- Zero is a double. -/
theorem roundNonneg_zero : F64.roundNonneg 0 = .finite 0 := by
  have hm : roundHalfEven (0 / 2 ^ (binadeExp 0 - 52)) = 0 := by
    rw [zero_div]
    exact roundHalfEven_eq_of_near 0 0 (by norm_num)
  unfold F64.roundNonneg
  rw [hm]
  simp

/-- The nearest multiple of the step is not negative and is within half a step. -/
theorem roundNonneg_core (a : ℚ) (ha : 0 < a) :
    0 < (2:ℚ) ^ (binadeExp a - 52)
    ∧ 0 ≤ (roundHalfEven (a / 2 ^ (binadeExp a - 52)) : ℚ) * 2 ^ (binadeExp a - 52)
    ∧ |(roundHalfEven (a / 2 ^ (binadeExp a - 52)) : ℚ) * 2 ^ (binadeExp a - 52) - a|
        ≤ 2 ^ (binadeExp a - 52) / 2 := by
  have hu : 0 < (2:ℚ) ^ (binadeExp a - 52) := by positivity
  refine ⟨hu, ?_, ?_⟩
  · have h0 : (0:ℤ) ≤ roundHalfEven (a / 2 ^ (binadeExp a - 52)) :=
      roundHalfEven_ge_of_le _ 0 (by push_cast; positivity)
    have h0' : (0:ℚ) ≤ (roundHalfEven (a / 2 ^ (binadeExp a - 52)) : ℚ) := by exact_mod_cast h0
    positivity
  · have hm := roundHalfEven_sub_le (a / 2 ^ (binadeExp a - 52))
    have heq : (roundHalfEven (a / 2 ^ (binadeExp a - 52)) : ℚ) * 2 ^ (binadeExp a - 52) - a
        = ((roundHalfEven (a / 2 ^ (binadeExp a - 52)) : ℚ) - a / 2 ^ (binadeExp a - 52))
          * 2 ^ (binadeExp a - 52) := by
      field_simp
    rw [heq, abs_mul, abs_of_pos hu]
    calc |(roundHalfEven (a / 2 ^ (binadeExp a - 52)) : ℚ) - a / 2 ^ (binadeExp a - 52)|
          * 2 ^ (binadeExp a - 52)
        ≤ 1 / 2 * 2 ^ (binadeExp a - 52) := mul_le_mul_of_nonneg_right hm (le_of_lt hu)
      _ = 2 ^ (binadeExp a - 52) / 2 := by ring

/-- Half a step is at most the relative error `2 ^ -53` plus half the least
subnormal step. -/
theorem half_quantum_le (a : ℚ) (ha : 0 < a) :
    (2:ℚ) ^ (binadeExp a - 52) / 2 ≤ a / 2 ^ (53 : ℕ) + 1 / 2 ^ (1075 : ℕ) := by
  rcases zpow_binadeExp_le a ha with hle | heq
  · rw [zpow_binadeExp_split] at hle
    have hpos : (0:ℚ) < 1 / 2 ^ (1075 : ℕ) := by positivity
    have h2 : (2:ℚ) ^ (binadeExp a - 52) / 2 ≤ a / 2 ^ (53 : ℕ) := by
      rw [div_le_div_iff₀ (by norm_num) (by positivity)]
      calc (2:ℚ) ^ (binadeExp a - 52) * 2 ^ (53 : ℕ)
          = 2 ^ (binadeExp a - 52) * 2 ^ (52 : ℕ) * 2 := by ring
        _ ≤ a * 2 := by linarith
    linarith
  · rw [heq, zpow_subnormal_quantum]
    have hpos : (0:ℚ) ≤ a / 2 ^ (53 : ℕ) := by positivity
    have : (1:ℚ) / 2 ^ (1074 : ℕ) / 2 = 1 / 2 ^ (1075 : ℕ) := by
      rw [div_div, ← pow_succ]
    linarith

/-- Rounding a value below `2 ^ 1023` gives a finite double, not negative, off by
at most the relative error `2 ^ -53` plus `2 ^ -1075`. -/
theorem roundNonneg_error (a : ℚ) (h0 : 0 ≤ a) (hlt : a < 2 ^ 1023) :
    ∃ r, F64.roundNonneg a = .finite r ∧ 0 ≤ r
      ∧ |r - a| ≤ a / 2 ^ 53 + 1 / 2 ^ 1075 := by
  rcases eq_or_lt_of_le h0 with hz | hpos
  · subst hz
    exact ⟨0, roundNonneg_zero, le_refl 0, by norm_num⟩
  · obtain ⟨_, hr0, herr⟩ := roundNonneg_core a hpos
    have hhalf := half_quantum_le a hpos
    have hbound := le_trans herr hhalf
    refine ⟨_, ?_, hr0, hbound⟩
    unfold F64.roundNonneg
    rw [if_pos]
    have hub := (abs_le.mp hbound).2
    have h1 : a / 2 ^ 53 < 2 ^ 1023 / 2 ^ 53 := by
      apply div_lt_div_of_pos_right hlt
      positivity
    have h2 : (2:ℚ) ^ 1023 + 2 ^ 1023 / 2 ^ 53 + 1 / 2 ^ 1075 < 2 ^ 1024 := by norm_num
    linarith

/-- A result below the least positive double `2 ^ -1074` is zero, and comes from
a value of at most `2 ^ -1075`. -/
theorem roundNonneg_small (a r : ℚ) (h0 : 0 ≤ a) (hr : F64.roundNonneg a = .finite r)
    (hsmall : r < 1 / 2 ^ 1074) : r = 0 ∧ a ≤ 1 / 2 ^ 1075 := by
  rcases eq_or_lt_of_le h0 with hz | hpos
  · subst hz
    rw [roundNonneg_zero] at hr
    cases hr
    exact ⟨rfl, by positivity⟩
  · obtain ⟨hu, _, herr⟩ := roundNonneg_core a hpos
    have hrdef : r = (roundHalfEven (a / 2 ^ (binadeExp a - 52)) : ℚ)
        * 2 ^ (binadeExp a - 52) := by
      unfold F64.roundNonneg at hr
      split at hr
      · cases hr
        rfl
      · cases hr
    rcases zpow_binadeExp_le a hpos with hle | heq
    · exfalso
      have hge := binadeExp_ge a
      rw [zpow_binadeExp_split] at hle
      have hn : ((2 ^ 52 : ℤ) : ℚ) ≤ a / 2 ^ (binadeExp a - 52) := by
        rw [le_div_iff₀ hu]
        push_cast
        linarith
      have hm := roundHalfEven_ge_of_le _ _ hn
      have hm' : ((2 ^ 52 : ℤ) : ℚ) ≤ (roundHalfEven (a / 2 ^ (binadeExp a - 52)) : ℚ) := by
        exact_mod_cast hm
      have hq : (1:ℚ) / 2 ^ 1074 ≤ 2 ^ (binadeExp a - 52) := by
        rw [← zpow_subnormal_quantum]
        exact zpow_le_zpow_right₀ (by norm_num) (by omega)
      have hr2 : (2:ℚ) ^ (binadeExp a - 52)
          ≤ (roundHalfEven (a / 2 ^ (binadeExp a - 52)) : ℚ) * 2 ^ (binadeExp a - 52) := by
        have h1 : (1:ℚ) ≤ (roundHalfEven (a / 2 ^ (binadeExp a - 52)) : ℚ) := by
          push_cast at hm'
          have : (1:ℚ) ≤ 2 ^ 52 := by norm_num
          linarith
        nlinarith
      linarith
    · rw [heq, zpow_subnormal_quantum] at hrdef herr
      have hq : (0:ℚ) < 1 / 2 ^ 1074 := by positivity
      have hmlt : (roundHalfEven (a / (1 / 2 ^ 1074)) : ℚ) < 1 := by
        by_contra hcon
        push_neg at hcon
        have : (1:ℚ) / 2 ^ 1074 ≤ (roundHalfEven (a / (1 / 2 ^ 1074)) : ℚ) * (1 / 2 ^ 1074) := by
          nlinarith
        linarith
      have hmle : roundHalfEven (a / (1 / 2 ^ 1074)) ≤ 0 := by
        have hcast : (roundHalfEven (a / (1 / 2 ^ 1074)) : ℚ) < ((1 : ℤ) : ℚ) := by
          rw [Int.cast_one]
          exact hmlt
        have := Int.cast_lt.mp hcast
        omega
      have hmge : 0 ≤ roundHalfEven (a / (1 / 2 ^ 1074)) :=
        roundHalfEven_ge_of_le _ 0 (by push_cast; positivity)
      have hmz : roundHalfEven (a / (1 / 2 ^ 1074)) = 0 := le_antisymm hmle hmge
      rw [hmz] at hrdef herr
      simp only [Int.cast_zero, zero_mul] at hrdef herr
      refine ⟨hrdef, ?_⟩
      rw [zero_sub, abs_neg, abs_of_pos hpos] at herr
      have : (1:ℚ) / 2 ^ 1074 / 2 = 1 / 2 ^ 1075 := by
        rw [div_div, ← pow_succ]
      linarith

/-- Rounding a value that is not negative gives a double that is not negative. -/
theorem roundNonneg_nonneg (a r : ℚ) (h0 : 0 ≤ a) (hr : F64.roundNonneg a = .finite r) :
    0 ≤ r := by
  rcases eq_or_lt_of_le h0 with hz | hpos
  · subst hz
    rw [roundNonneg_zero] at hr
    cases hr
    exact le_refl 0
  · obtain ⟨_, hr0, _⟩ := roundNonneg_core a hpos
    unfold F64.roundNonneg at hr
    split at hr
    · cases hr
      exact hr0
    · cases hr

/-- From `2 ^ 1024` on, rounding gives `Infinity`. -/
theorem roundNonneg_overflow (a : ℚ) (ha : 2 ^ 1024 ≤ a) : F64.roundNonneg a = .posInf := by
  have hpos : 0 < a := lt_of_lt_of_le (by positivity) ha
  obtain ⟨hu, _, _⟩ := roundNonneg_core a hpos
  have hz : (2:ℚ) ^ (1024 : ℤ) ≤ a := le_of_eq_of_le (zpow_ofNat (2:ℚ) 1024) ha
  have hlog : (1024 : ℤ) ≤ Int.log 2 a := by
    apply (Int.zpow_le_iff_le_log (by norm_num) hpos).mp
    rw [Nat.cast_ofNat]
    exact hz
  have hexp : (1024 : ℤ) ≤ binadeExp a := le_trans hlog (le_max_left _ _)
  have hle : (2:ℚ) ^ binadeExp a ≤ a := by
    rcases zpow_binadeExp_le a hpos with h | h
    · exact h
    · omega
  have hsplit := zpow_binadeExp_split (binadeExp a)
  have hn : ((2 ^ 52 : ℤ) : ℚ) ≤ a / 2 ^ (binadeExp a - 52) := by
    rw [le_div_iff₀ hu]
    push_cast
    linarith
  have hm := roundHalfEven_ge_of_le _ _ hn
  have hm' : ((2 ^ 52 : ℤ) : ℚ) ≤ (roundHalfEven (a / 2 ^ (binadeExp a - 52)) : ℚ) :=
    Int.cast_le.mpr hm
  push_cast at hm'
  have hbig : (2:ℚ) ^ (1024 : ℕ) ≤ 2 ^ binadeExp a := by
    refine le_of_eq_of_le (zpow_ofNat (2:ℚ) 1024).symm ?_
    exact zpow_le_zpow_right₀ (by norm_num) hexp
  have hr : (2:ℚ) ^ binadeExp a
      ≤ (roundHalfEven (a / 2 ^ (binadeExp a - 52)) : ℚ) * 2 ^ (binadeExp a - 52) := by
    rw [hsplit]
    nlinarith
  unfold F64.roundNonneg
  rw [if_neg]
  exact not_lt.mpr (le_trans hbig hr)

/-- The error of rounding, for either sign. -/
theorem ofRat_error (a : ℚ) (hlt : |a| < 2 ^ 1023) :
    ∃ r, F64.ofRat a = .finite r ∧ |r - a| ≤ |a| / 2 ^ 53 + 1 / 2 ^ 1075
      ∧ (0 ≤ a → 0 ≤ r) := by
  unfold F64.ofRat
  by_cases hneg : a < 0
  · rw [if_pos hneg]
    have habs : |a| = -a := abs_of_neg hneg
    rw [habs] at hlt ⊢
    obtain ⟨r, hr, _, herr⟩ := roundNonneg_error (-a) (by linarith) hlt
    refine ⟨-r, by rw [hr]; rfl, ?_, fun h => absurd h (not_le.mpr hneg)⟩
    have : -r - a = -(r - -a) := by ring
    rw [this, abs_neg]
    exact herr
  · rw [if_neg hneg]
    push_neg at hneg
    have habs : |a| = a := abs_of_nonneg hneg
    rw [habs] at hlt ⊢
    obtain ⟨r, hr, hr0, herr⟩ := roundNonneg_error a hneg hlt
    exact ⟨r, hr, herr, fun _ => hr0⟩

/-- The exponent, from bounds on the value. -/
theorem binadeExp_eq (a : ℚ) (e : ℤ) (ha : 0 < a) (he : -1022 ≤ e)
    (hlo : (2:ℚ) ^ e ≤ a ∨ e = -1022) (hhi : a < 2 ^ (e + 1)) : binadeExp a = e := by
  have hlog : Int.log 2 a < e + 1 := by
    rw [← Int.lt_zpow_iff_log_lt (by norm_num) ha]
    exact_mod_cast hhi
  unfold binadeExp
  rcases hlo with hlo | hlo
  · have hle : e ≤ Int.log 2 a := by
      rw [← Int.zpow_le_iff_le_log (by norm_num) ha]
      exact_mod_cast hlo
    have : Int.log 2 a = e := by omega
    rw [this]
    exact max_eq_left he
  · subst hlo
    exact max_eq_right (by omega)

/-- The nearest double, from the exponent and the nearest multiple of the step. -/
theorem ofRat_eq (a r : ℚ) (e m : ℤ) (ha : 0 < a) (he : -1022 ≤ e)
    (hlo : (2:ℚ) ^ e ≤ a ∨ e = -1022) (hhi : a < 2 ^ (e + 1))
    (hnear : |a / 2 ^ (e - 52) - m| < 1 / 2) (hr : r = m * 2 ^ (e - 52))
    (hfin : r < 2 ^ 1024) : F64.ofRat a = .finite r := by
  have hexp := binadeExp_eq a e ha he hlo hhi
  have hm := roundHalfEven_eq_of_near _ m hnear
  unfold F64.ofRat F64.roundNonneg
  rw [if_neg (not_lt.mpr (le_of_lt ha)), hexp, hm, ← hr, if_pos hfin]

/-- Rounding zero gives zero. -/
theorem ofRat_zero : F64.ofRat 0 = .finite 0 := by
  unfold F64.ofRat
  rw [if_neg (lt_irrefl 0)]
  exact roundNonneg_zero

/-- The nearest double, with the side conditions in one conjunction. -/
theorem ofRat_eval (a r : ℚ) (e m : ℤ)
    (h : 0 < a ∧ -1022 ≤ e ∧ (2:ℚ) ^ e ≤ a ∧ a < 2 ^ (e + 1)
      ∧ |a / 2 ^ (e - 52) - m| < 1 / 2 ∧ r = m * 2 ^ (e - 52) ∧ r < 2 ^ 1024) :
    F64.ofRat a = .finite r :=
  ofRat_eq a r e m h.1 h.2.1 (Or.inl h.2.2.1) h.2.2.2.1 h.2.2.2.2.1 h.2.2.2.2.2.1 h.2.2.2.2.2.2

/-- The value of `Math.round` on a finite number, from the two bounds. -/
theorem mathRound_eval (p : ℚ) (n : ℤ) (h : (n : ℚ) ≤ p + 1 / 2 ∧ p + 1 / 2 < n + 1) :
    mathRound (.finite p) = .finite n := by
  have hfloor : ⌊p + 1 / 2⌋ = n := Int.floor_eq_iff.mpr h
  show F64.finite ((⌊p + 1 / 2⌋ : ℤ) : ℚ) = .finite n
  rw [hfloor]

/-- The divisor `total || 1` is never zero. -/
theorem histogramDivisor_ne_zero (total : F64) : histogramDivisor total ≠ .finite 0 := by
  unfold histogramDivisor
  cases total with
  | finite q =>
    by_cases hq : q = 0
    · simp [F64.truthy, hq]
    · simp [F64.truthy, hq]
  | posInf => simp [F64.truthy]
  | negInf => simp [F64.truthy]
  | nan => simp [F64.truthy]

/-- One step of the sum of line 85. -/
theorem foldl_add_step (s : F64) (b : Bucket) (rest : List Bucket) (next t : F64)
    (hstep : F64.add s b.count = next)
    (hrest : rest.foldl (fun s b => F64.add s b.count) next = t) :
    (b :: rest).foldl (fun s b => F64.add s b.count) s = t := by
  rw [List.foldl_cons, hstep, hrest]

/-- The total, from the steps of the sum. -/
theorem histogramTotal_of_foldl (buckets : List Bucket) (t : F64)
    (hfold : buckets.foldl (fun s b => F64.add s b.count) (.finite 0) = t) :
    histogramTotal buckets = t :=
  hfold

/-- The bars of a non-empty histogram, from its total and the height of each
bar. -/
theorem ConfidenceHistogram_of_bars (b : Bucket) (rest : List Bucket) (total : F64)
    (heights : List F64) (htotal : histogramTotal (b :: rest) = total)
    (hbars : (b :: rest).map (barHeight total) = heights) :
    ConfidenceHistogram (b :: rest) = some heights := by
  simp [ConfidenceHistogram, htotal, hbars]

/-- The height of a bar when the total is finite and not zero. -/
theorem barHeight_of_finite (T c : ℚ) (hT : T ≠ 0) (b : Bucket) (hb : b.count = .finite c) :
    barHeight (.finite T) b
      = mathRound (F64.mul (F64.ofRat (c / T)) (.finite 100)) := by
  simp [barHeight, histogramDivisor, F64.truthy, hT, hb, F64.div]

/-- The percentage `count / total * 100` as the component computes it, two
roundings away from the exact one. -/
theorem percent_error (y : ℚ) (hy : |y| ≤ 2 ^ 1000) :
    ∃ p, F64.mul (F64.ofRat y) (.finite 100) = .finite p
      ∧ |p - y * 100| ≤ (|y| + 1) / 2 ^ 45
      ∧ (0 ≤ y → 0 ≤ p) := by
  have hylt : |y| < 2 ^ 1023 := lt_of_le_of_lt hy (by norm_num)
  obtain ⟨x, hx, hxerr, hx0⟩ := ofRat_error y hylt
  have hy0 : 0 ≤ |y| := abs_nonneg y
  have hxabs : |x| ≤ |y| + (|y| / 2 ^ 53 + 1 / 2 ^ 1075) := by
    have h1 : |x| ≤ |x - y| + |y| := by
      have := abs_add (x - y) y
      simpa using this
    linarith
  have hx100 : |x * 100| = |x| * 100 := by
    rw [abs_mul]
    norm_num
  have hxlt : |x * 100| < 2 ^ 1023 := by
    rw [hx100]
    have h2 : ((2:ℚ) ^ 1000 + ((2:ℚ) ^ 1000 / 2 ^ 53 + 1 / 2 ^ 1075)) * 100 < 2 ^ 1023 := by
      norm_num
    have h3 : |y| / 2 ^ 53 ≤ (2:ℚ) ^ 1000 / 2 ^ 53 :=
      div_le_div_of_nonneg_right hy (by positivity)
    linarith
  obtain ⟨p, hp, hperr, hp0⟩ := ofRat_error (x * 100) hxlt
  refine ⟨p, ?_, ?_, ?_⟩
  · rw [hx]
    exact hp
  · rw [hx100] at hperr
    have h1 : |p - y * 100| ≤ |p - x * 100| + |x - y| * 100 := by
      have h := abs_add (p - x * 100) ((x - y) * 100)
      have h' : |(x - y) * 100| = |x - y| * 100 := by
        rw [abs_mul]
        norm_num
      rw [h'] at h
      have heq : p - x * 100 + (x - y) * 100 = p - y * 100 := by ring
      rw [heq] at h
      exact h
    have hnum : (|y| + (|y| / 2 ^ 53 + 1 / 2 ^ 1075)) * 100 / 2 ^ 53 + 1 / 2 ^ 1075
        + (|y| / 2 ^ 53 + 1 / 2 ^ 1075) * 100 ≤ (|y| + 1) / 2 ^ 45 := by
      have e1 : (1:ℚ) / 2 ^ 1075 ≤ 1 / 2 ^ 60 := by norm_num
      have e2 : (0:ℚ) < 1 / 2 ^ 1075 := by positivity
      nlinarith [hy0]
    have h4 : |x| * 100 / 2 ^ 53 ≤ (|y| + (|y| / 2 ^ 53 + 1 / 2 ^ 1075)) * 100 / 2 ^ 53 := by
      apply div_le_div_of_nonneg_right _ (by positivity)
      linarith
    linarith
  · intro h0
    exact hp0 (mul_nonneg (hx0 h0) (by norm_num))

/-- The value `Math.round` gives is within one half of its argument. -/
theorem floor_half_bounds (p : ℚ) : |((⌊p + 1 / 2⌋ : ℤ) : ℚ) - p| ≤ 1 / 2 := by
  have h1 := Int.floor_le (p + 1 / 2)
  have h2 := Int.lt_floor_add_one (p + 1 / 2)
  rw [abs_le]
  constructor <;> linarith

/-- Counterexample to C9 as stated. A list with a total above zero and a bare
count next to a structured one: the bars are drawn at 33% and 67%, and 33/100
is not 1/3. -/
theorem histogram_fraction_counterexample :
    histogramTotal [.bare (.finite 1), .record (some (1 / 10)) (some (1 / 5)) (.finite 2)] = .finite 3
      ∧ ConfidenceHistogram [.bare (.finite 1), .record (some (1 / 10)) (some (1 / 5)) (.finite 2)]
          = some [.finite 33, .finite 67]
      ∧ heightFraction 33 ≠ 1 / 3 := by
  have hsum0 : F64.add (.finite 0) (.finite 1) = .finite 1 :=
    ofRat_eval _ _ (0) 4503599627370496 (by norm_num [abs_lt])
  have hsum1 : F64.add (.finite 1) (.finite 2) = .finite 3 :=
    ofRat_eval _ _ (1) 6755399441055744 (by norm_num [abs_lt])
  have htotal : histogramTotal [.bare (.finite 1), .record (some (1 / 10)) (some (1 / 5)) (.finite 2)]
      = .finite 3 :=
    histogramTotal_of_foldl _ _ (foldl_add_step _ _ _ _ _ hsum0 (foldl_add_step _ _ _ _ _ hsum1 rfl))
  have hquot0 : F64.ofRat (1 / 3) = .finite (6004799503160661 / 2 ^ 54) :=
    ofRat_eval _ _ (-2) 6004799503160661 (by norm_num [abs_lt])
  have hprod0 : F64.mul (.finite (6004799503160661 / 2 ^ 54)) (.finite 100)
      = .finite (2345624805922133 / 2 ^ 46) :=
    ofRat_eval _ _ (5) 4691249611844266 (by norm_num [abs_lt])
  have hbar0 : barHeight (.finite 3) (.bare (.finite 1)) = .finite 33 := by
    rw [barHeight_of_finite 3 1 (by norm_num) (.bare (.finite 1)) rfl, hquot0, hprod0]
    exact mathRound_eval _ 33 (by norm_num)
  have hquot1 : F64.ofRat (2 / 3) = .finite (6004799503160661 / 2 ^ 53) :=
    ofRat_eval _ _ (-1) 6004799503160661 (by norm_num [abs_lt])
  have hprod1 : F64.mul (.finite (6004799503160661 / 2 ^ 53)) (.finite 100)
      = .finite (2345624805922133 / 2 ^ 45) :=
    ofRat_eval _ _ (6) 4691249611844266 (by norm_num [abs_lt])
  have hbar1 : barHeight (.finite 3) (.record (some (1 / 10)) (some (1 / 5)) (.finite 2)) = .finite 67 := by
    rw [barHeight_of_finite 3 2 (by norm_num) (.record (some (1 / 10)) (some (1 / 5)) (.finite 2)) rfl, hquot1, hprod1]
    exact mathRound_eval _ 67 (by norm_num)
  have hbars : List.map (barHeight (.finite 3)) [.bare (.finite 1), .record (some (1 / 10)) (some (1 / 5)) (.finite 2)]
      = [.finite 33, .finite 67] := by
    rw [List.map_cons, hbar0, List.map_cons, hbar1, List.map_nil]
  exact ⟨htotal, ConfidenceHistogram_of_bars _ _ _ _ htotal hbars, by norm_num [heightFraction]⟩

/-- **C9**, amended (`ConfidenceHistogram`, total above zero). For every
non-empty bucket list, counts bare or structured in any mixture, whose total
`T` as line 85 computes it is finite and above zero: the component draws one
bar per bucket, and for a finite count `c` whose share is below `2 ^ 1000` in
size the bar has a whole number `n` of percent for its height, the value of
`Math.round(c / T * 100)` in double arithmetic. Its height fraction `n / 100`
is within `1/200 + (|c / T| + 1) / 2 ^ 50` of `c / T`; for a count of at most
the total it is within `1/200 + 1 / 2 ^ 49` of `c / T`, and is `c / T` itself
whenever `c / T * 100` is an integer. -/
theorem histogram_height_is_rounded_share (buckets : List Bucket) (T : ℚ)
    (hne : buckets ≠ []) (htotal : histogramTotal buckets = .finite T) (hT : 0 < T) :
    ConfidenceHistogram buckets = some (buckets.map (barHeight (.finite T)))
      ∧ ∀ b ∈ buckets, ∀ c : ℚ, b.count = .finite c → |c| ≤ T * 2 ^ 1000 →
          ∃ n : ℤ, barHeight (.finite T) b = .finite n
            ∧ |heightFraction n - c / T| ≤ 1 / 200 + (|c / T| + 1) / 2 ^ 50
            ∧ (|c| ≤ T → |heightFraction n - c / T| ≤ 1 / 200 + 1 / 2 ^ 49)
            ∧ (|c| ≤ T → ∀ k : ℤ, c / T * 100 = k → heightFraction n = c / T) := by
  have hlen : buckets.length ≠ 0 := by
    intro hzero
    exact hne (List.length_eq_zero.mp hzero)
  constructor
  · simp [ConfidenceHistogram, hlen, htotal]
  · intro b _ c hb hc
    have hy : |c / T| ≤ 2 ^ 1000 := by
      rw [abs_div, abs_of_pos hT, div_le_iff₀ hT]
      linarith
    obtain ⟨p, hp, hperr, _⟩ := percent_error (c / T) hy
    have hbar : barHeight (.finite T) b = .finite ((⌊p + 1 / 2⌋ : ℤ) : ℚ) := by
      rw [barHeight_of_finite T c (ne_of_gt hT) b hb, hp]
      rfl
    have hfl := floor_half_bounds p
    have hy0 : 0 ≤ |c / T| := abs_nonneg _
    have hmain : |((⌊p + 1 / 2⌋ : ℤ) : ℚ) - c / T * 100| ≤ 1 / 2 + (|c / T| + 1) / 2 ^ 45 := by
      have h := abs_add (((⌊p + 1 / 2⌋ : ℤ) : ℚ) - p) (p - c / T * 100)
      have heq : ((⌊p + 1 / 2⌋ : ℤ) : ℚ) - p + (p - c / T * 100)
          = ((⌊p + 1 / 2⌋ : ℤ) : ℚ) - c / T * 100 := by ring
      rw [heq] at h
      linarith
    have hfrac : heightFraction ⌊p + 1 / 2⌋ - c / T
        = (((⌊p + 1 / 2⌋ : ℤ) : ℚ) - c / T * 100) / 100 := by
      unfold heightFraction
      ring
    have hgen : |heightFraction ⌊p + 1 / 2⌋ - c / T| ≤ 1 / 200 + (|c / T| + 1) / 2 ^ 50 := by
      rw [hfrac, abs_div, abs_of_pos (by norm_num : (0:ℚ) < 100), div_le_iff₀ (by norm_num)]
      have : (1:ℚ) / 2 + (|c / T| + 1) / 2 ^ 45
          ≤ (1 / 200 + (|c / T| + 1) / 2 ^ 50) * 100 := by
        nlinarith [hy0]
      linarith
    have hshare : |c| ≤ T → |c / T| ≤ 1 := by
      intro hle
      rw [abs_div, abs_of_pos hT, div_le_one hT]
      exact hle
    refine ⟨⌊p + 1 / 2⌋, hbar, hgen, ?_, ?_⟩
    · intro hle
      have h1 := hshare hle
      have : (|c / T| + 1) / 2 ^ 50 ≤ (1:ℚ) / 2 ^ 49 := by
        rw [div_le_div_iff₀ (by positivity) (by positivity)]
        nlinarith
      linarith
    · intro hle k hk
      have h1 := hshare hle
      rw [hk] at hmain
      have hsmall : (|c / T| + 1) / 2 ^ 45 ≤ (1:ℚ) / 4 := by
        rw [div_le_div_iff₀ (by positivity) (by norm_num)]
        nlinarith
      have hlt : |((⌊p + 1 / 2⌋ - k : ℤ) : ℚ)| < 1 := by
        push_cast
        linarith
      have hint : |⌊p + 1 / 2⌋ - k| < 1 := by
        have hcast : ((|⌊p + 1 / 2⌋ - k| : ℤ) : ℚ) < ((1 : ℤ) : ℚ) := by
          rw [Int.cast_abs, Int.cast_one]
          exact hlt
        exact Int.cast_lt.mp hcast
      have hk' : ⌊p + 1 / 2⌋ = k := by
        have := abs_lt.mp hint
        omega
      unfold heightFraction
      rw [hk', ← hk]
      ring

/-- Four buckets sharing a total of 4 evenly, in both forms: the first bar is
drawn at a whole percent whose fraction is its exact share, one quarter. -/
theorem histogram_height_is_rounded_share_witness :
    histogramTotal [.bare (.finite 1), .record none none (.finite 1), .bare (.finite 1), .record (some (3 / 10)) none (.finite 1)]
        = .finite 4
      ∧ ∃ n : ℤ, barHeight (.finite 4) (.bare (.finite 1)) = .finite n
          ∧ |heightFraction n - 1 / 4| ≤ 1 / 200 + 1 / 2 ^ 49
          ∧ heightFraction n = 1 / 4 := by
  have hsum0 : F64.add (.finite 0) (.finite 1) = .finite 1 :=
    ofRat_eval _ _ (0) 4503599627370496 (by norm_num [abs_lt])
  have hsum1 : F64.add (.finite 1) (.finite 1) = .finite 2 :=
    ofRat_eval _ _ (1) 4503599627370496 (by norm_num [abs_lt])
  have hsum2 : F64.add (.finite 2) (.finite 1) = .finite 3 :=
    ofRat_eval _ _ (1) 6755399441055744 (by norm_num [abs_lt])
  have hsum3 : F64.add (.finite 3) (.finite 1) = .finite 4 :=
    ofRat_eval _ _ (2) 4503599627370496 (by norm_num [abs_lt])
  have htotal : histogramTotal [.bare (.finite 1), .record none none (.finite 1), .bare (.finite 1), .record (some (3 / 10)) none (.finite 1)]
      = .finite 4 :=
    histogramTotal_of_foldl _ _ (foldl_add_step _ _ _ _ _ hsum0 (foldl_add_step _ _ _ _ _ hsum1 (foldl_add_step _ _ _ _ _ hsum2 (foldl_add_step _ _ _ _ _ hsum3 rfl))))
  obtain ⟨n, hn, _, hnear, hexact⟩ := (histogram_height_is_rounded_share
    [.bare (.finite 1), .record none none (.finite 1), .bare (.finite 1), .record (some (3 / 10)) none (.finite 1)]
    4 (by simp) htotal (by norm_num)).2 (.bare (.finite 1)) (by simp) 1 rfl (by norm_num)
  have hle : |(1:ℚ)| ≤ 4 := by norm_num
  refine ⟨htotal, n, hn, ?_, ?_⟩
  · simpa using hnear hle
  · simpa using hexact hle 25 (by norm_num)

/-- Double rounding below a tie. For the counts 23 and 17 the exact percentage
of the first bucket is 57.5, but `23 / 40` rounds to a double below 0.575 and
the product to 57.49999999999999: the bar is drawn at 57%, not 58%. -/
theorem histogram_double_rounding_below_tie :
    ConfidenceHistogram [.bare (.finite 23), .bare (.finite 17)] = some [.finite 57, .finite 43] := by
  have hsum0 : F64.add (.finite 0) (.finite 23) = .finite 23 :=
    ofRat_eval _ _ (4) 6473924464345088 (by norm_num [abs_lt])
  have hsum1 : F64.add (.finite 23) (.finite 17) = .finite 40 :=
    ofRat_eval _ _ (5) 5629499534213120 (by norm_num [abs_lt])
  have htotal : histogramTotal [.bare (.finite 23), .bare (.finite 17)]
      = .finite 40 :=
    histogramTotal_of_foldl _ _ (foldl_add_step _ _ _ _ _ hsum0 (foldl_add_step _ _ _ _ _ hsum1 rfl))
  have hquot0 : F64.ofRat (23 / 40) = .finite (2589569785738035 / 2 ^ 52) :=
    ofRat_eval _ _ (-1) 5179139571476070 (by norm_num [abs_lt])
  have hprod0 : F64.mul (.finite (2589569785738035 / 2 ^ 52)) (.finite 100)
      = .finite (8092405580431359 / 2 ^ 47) :=
    ofRat_eval _ _ (5) 8092405580431359 (by norm_num [abs_lt])
  have hbar0 : barHeight (.finite 40) (.bare (.finite 23)) = .finite 57 := by
    rw [barHeight_of_finite 40 23 (by norm_num) (.bare (.finite 23)) rfl, hquot0, hprod0]
    exact mathRound_eval _ 57 (by norm_num)
  have hquot1 : F64.ofRat (17 / 40) = .finite (7656119366529843 / 2 ^ 54) :=
    ofRat_eval _ _ (-2) 7656119366529843 (by norm_num [abs_lt])
  have hprod1 : F64.mul (.finite (7656119366529843 / 2 ^ 54)) (.finite 100)
      = .finite (85 / 2) :=
    ofRat_eval _ _ (5) 5981343255101440 (by norm_num [abs_lt])
  have hbar1 : barHeight (.finite 40) (.bare (.finite 17)) = .finite 43 := by
    rw [barHeight_of_finite 40 17 (by norm_num) (.bare (.finite 17)) rfl, hquot1, hprod1]
    exact mathRound_eval _ 43 (by norm_num)
  have hbars : List.map (barHeight (.finite 40)) [.bare (.finite 23), .bare (.finite 17)]
      = [.finite 57, .finite 43] := by
    rw [List.map_cons, hbar0, List.map_cons, hbar1, List.map_nil]
  exact ConfidenceHistogram_of_bars _ _ _ _ htotal hbars

/-- Double rounding onto a tie. For these counts the product is rounded to
exactly 97.5 and the bar is drawn at 98%, which is more than 1/200 away from the
exact share: the slack `1 / 2 ^ 49` of the amended claim is needed. -/
theorem histogram_half_percent_exceeded :
    ConfidenceHistogram [.bare (.finite 2337519197406386),
        .bare (.finite 59936389677087)] = some [.finite 98, .finite 3]
      ∧ 1 / 200 < |heightFraction 98 - 2337519197406386 / 2397455587083473| := by
  have hsum0 : F64.add (.finite 0) (.finite 2337519197406386) = .finite 2337519197406386 :=
    ofRat_eval _ _ (51) 4675038394812772 (by norm_num [abs_lt])
  have hsum1 : F64.add (.finite 2337519197406386) (.finite 59936389677087) = .finite 2397455587083473 :=
    ofRat_eval _ _ (51) 4794911174166946 (by norm_num [abs_lt])
  have htotal : histogramTotal [.bare (.finite 2337519197406386), .bare (.finite 59936389677087)]
      = .finite 2397455587083473 :=
    histogramTotal_of_foldl _ _ (foldl_add_step _ _ _ _ _ hsum0 (foldl_add_step _ _ _ _ _ hsum1 rfl))
  have hquot0 : F64.ofRat (2337519197406386 / 2397455587083473) = .finite (8782019273372467 / 2 ^ 53) :=
    ofRat_eval _ _ (-1) 8782019273372467 (by norm_num [abs_lt])
  have hprod0 : F64.mul (.finite (8782019273372467 / 2 ^ 53)) (.finite 100)
      = .finite (195 / 2) :=
    ofRat_eval _ _ (6) 6860952557322240 (by norm_num [abs_lt])
  have hbar0 : barHeight (.finite 2397455587083473) (.bare (.finite 2337519197406386)) = .finite 98 := by
    rw [barHeight_of_finite 2397455587083473 2337519197406386 (by norm_num) (.bare (.finite 2337519197406386)) rfl, hquot0, hprod0]
    exact mathRound_eval _ 98 (by norm_num)
  have hquot1 : F64.ofRat (59936389677087 / 2397455587083473) = .finite (7205759403792815 / 2 ^ 58) :=
    ofRat_eval _ _ (-6) 7205759403792815 (by norm_num [abs_lt])
  have hprod1 : F64.mul (.finite (7205759403792815 / 2 ^ 58)) (.finite 100)
      = .finite (5629499534213137 / 2 ^ 51) :=
    ofRat_eval _ _ (1) 5629499534213137 (by norm_num [abs_lt])
  have hbar1 : barHeight (.finite 2397455587083473) (.bare (.finite 59936389677087)) = .finite 3 := by
    rw [barHeight_of_finite 2397455587083473 59936389677087 (by norm_num) (.bare (.finite 59936389677087)) rfl, hquot1, hprod1]
    exact mathRound_eval _ 3 (by norm_num)
  have hbars : List.map (barHeight (.finite 2397455587083473)) [.bare (.finite 2337519197406386), .bare (.finite 59936389677087)]
      = [.finite 98, .finite 3] := by
    rw [List.map_cons, hbar0, List.map_cons, hbar1, List.map_nil]
  exact ⟨ConfidenceHistogram_of_bars _ _ _ _ htotal hbars, by norm_num [heightFraction, lt_abs]⟩

/-- An overflowing total. Two counts written `1e308` add up to `Infinity`:
each quotient is 0 and both bars are drawn at 0%. -/
theorem histogram_overflowing_total :
    F64.ofRat (10 ^ 308) = .finite (5010420900022432 * 2 ^ 971)
      ∧ histogramTotal [.bare (.finite (5010420900022432 * 2 ^ 971)),
          .bare (.finite (5010420900022432 * 2 ^ 971))] = .posInf
      ∧ ConfidenceHistogram [.bare (.finite (5010420900022432 * 2 ^ 971)),
          .bare (.finite (5010420900022432 * 2 ^ 971))] = some [.finite 0, .finite 0] := by
  have hlit : F64.ofRat (10 ^ 308) = .finite (5010420900022432 * 2 ^ 971) :=
    ofRat_eval _ _ 1023 5010420900022432 (by norm_num [abs_lt])
  have hsum0 : F64.add (.finite 0) (.finite (5010420900022432 * 2 ^ 971))
      = .finite (5010420900022432 * 2 ^ 971) :=
    ofRat_eval _ _ 1023 5010420900022432 (by norm_num [abs_lt])
  have hsum1 : F64.add (.finite (5010420900022432 * 2 ^ 971)) (.finite (5010420900022432 * 2 ^ 971))
      = .posInf := by
    show F64.ofRat ((5010420900022432 * 2 ^ 971) + (5010420900022432 * 2 ^ 971)) = .posInf
    unfold F64.ofRat
    rw [if_neg (by norm_num)]
    exact roundNonneg_overflow _ (by norm_num)
  have htotal : histogramTotal [.bare (.finite (5010420900022432 * 2 ^ 971)),
      .bare (.finite (5010420900022432 * 2 ^ 971))] = .posInf :=
    histogramTotal_of_foldl _ _ (foldl_add_step _ _ _ _ _ hsum0 (foldl_add_step _ _ _ _ _ hsum1 rfl))
  have hbar : barHeight .posInf (.bare (.finite (5010420900022432 * 2 ^ 971))) = .finite 0 := by
    have hdiv : F64.div (.finite (5010420900022432 * 2 ^ 971)) .posInf = .finite 0 := rfl
    have hmul : F64.mul (.finite 0) (.finite 100) = .finite 0 := by
      show F64.ofRat (0 * 100) = .finite 0
      rw [zero_mul]
      exact ofRat_zero
    show mathRound (F64.mul (F64.div (.finite (5010420900022432 * 2 ^ 971)) .posInf) (.finite 100)) = .finite 0
    rw [hdiv, hmul]
    exact mathRound_eval 0 0 (by norm_num)
  have hbars : List.map (barHeight .posInf) [.bare (.finite (5010420900022432 * 2 ^ 971)),
      .bare (.finite (5010420900022432 * 2 ^ 971))] = [.finite 0, .finite 0] := by
    rw [List.map_cons, hbar, List.map_cons, hbar, List.map_nil]
  exact ⟨hlit, htotal, ConfidenceHistogram_of_bars _ _ _ _ htotal hbars⟩

/-- The sum of two finite numbers that are not negative. -/
theorem add_finite_nonneg (s c : ℚ) (hs : 0 ≤ s) (hc : 0 ≤ c) :
    F64.add (.finite s) (.finite c) = F64.roundNonneg (s + c) := by
  have h : ¬ (s + c < 0) := not_lt.mpr (add_nonneg hs hc)
  simp [F64.add, F64.ofRat, h]

/-- A sum of non-negative counts that reached `Infinity` stays there. -/
theorem foldl_add_posInf (l : List Bucket) (hnonneg : ∀ b ∈ l, b.count.isNonneg = true) :
    l.foldl (fun s b => F64.add s b.count) .posInf = .posInf := by
  induction l with
  | nil => rfl
  | cons b rest ih =>
    have hb := hnonneg b (List.mem_cons_self _ _)
    have hstep : F64.add .posInf b.count = .posInf := by
      cases hcount : b.count <;> simp_all [F64.add, F64.isNonneg]
    rw [List.foldl_cons, hstep]
    exact ih (fun x hx => hnonneg x (List.mem_cons_of_mem _ hx))

/-- When a sum of non-negative counts ends below the least positive double, the
starting value is below it and every count is at most `2 ^ -1075`. -/
theorem foldl_add_small (l : List Bucket) (s t : ℚ) (hs : 0 ≤ s)
    (hnonneg : ∀ b ∈ l, b.count.isNonneg = true)
    (hfold : l.foldl (fun s b => F64.add s b.count) (.finite s) = .finite t)
    (hsmall : t < 1 / 2 ^ 1074) :
    s < 1 / 2 ^ 1074
      ∧ ∀ b ∈ l, ∃ c, b.count = .finite c ∧ 0 ≤ c ∧ c ≤ 1 / 2 ^ 1075 := by
  induction l generalizing s with
  | nil =>
    simp only [List.foldl_nil] at hfold
    cases hfold
    exact ⟨hsmall, by simp⟩
  | cons b rest ih =>
    have hb := hnonneg b (List.mem_cons_self _ _)
    have hrest := fun x hx => hnonneg x (List.mem_cons_of_mem _ hx)
    rw [List.foldl_cons] at hfold
    cases hcount : b.count with
    | nan => simp [hcount, F64.isNonneg] at hb
    | negInf => simp [hcount, F64.isNonneg] at hb
    | posInf =>
      rw [hcount] at hfold
      have hinf : F64.add (.finite s) .posInf = .posInf := rfl
      rw [hinf, foldl_add_posInf rest hrest] at hfold
      cases hfold
    | finite c =>
      have hc : 0 ≤ c := by simpa [hcount, F64.isNonneg] using hb
      rw [hcount, add_finite_nonneg s c hs hc] at hfold
      cases hround : F64.roundNonneg (s + c) with
      | nan => simp [F64.roundNonneg] at hround; split at hround <;> cases hround
      | negInf => simp [F64.roundNonneg] at hround; split at hround <;> cases hround
      | posInf =>
        rw [hround, foldl_add_posInf rest hrest] at hfold
        cases hfold
      | finite s' =>
        rw [hround] at hfold
        have hs' : 0 ≤ s' := roundNonneg_nonneg (s + c) s' (add_nonneg hs hc) hround
        obtain ⟨hs'small, hrestsmall⟩ := ih s' hs' hrest hfold
        obtain ⟨_, hsum⟩ := roundNonneg_small (s + c) s' (add_nonneg hs hc) hround hs'small
        have hlt : (1:ℚ) / 2 ^ 1075 < 1 / 2 ^ 1074 := by
          rw [div_lt_div_iff₀ (by positivity) (by positivity)]
          norm_num
        refine ⟨by linarith, ?_⟩
        intro x hx
        rcases List.mem_cons.mp hx with hxb | hxr
        · subst hxb
          exact ⟨c, hcount, hc, by linarith⟩
        · exact hrestsmall x hxr

/-- With total zero, a count of at most `2 ^ -1075` is drawn with height 0. -/
theorem barHeight_of_tiny (c : ℚ) (hc0 : 0 ≤ c) (hc : c ≤ 1 / 2 ^ 1075) (b : Bucket)
    (hb : b.count = .finite c) : barHeight (.finite 0) b = .finite 0 := by
  have hdiv : histogramDivisor (.finite 0) = .finite 1 := by
    simp [histogramDivisor, F64.truthy]
  have htiny : (1:ℚ) / 2 ^ 1075 ≤ 1 / 2 ^ 60 := by norm_num
  have hy : |c / 1| ≤ 2 ^ 1000 := by
    rw [div_one, abs_of_nonneg hc0]
    have : (1:ℚ) / 2 ^ 60 ≤ 2 ^ 1000 := by norm_num
    linarith
  obtain ⟨p, hp, hperr, hp0⟩ := percent_error (c / 1) hy
  have hbar : barHeight (.finite 0) b = .finite ((⌊p + 1 / 2⌋ : ℤ) : ℚ) := by
    unfold barHeight
    rw [hdiv, hb]
    have hd : F64.div (.finite c) (.finite 1) = F64.ofRat (c / 1) := by
      simp [F64.div]
    rw [hd, hp]
    rfl
  rw [hbar]
  have hp0' : 0 ≤ p := hp0 (by rw [div_one]; exact hc0)
  rw [div_one, abs_of_nonneg hc0] at hperr
  have hub := (abs_le.mp hperr).2
  have hfloor : ⌊p + 1 / 2⌋ = 0 := by
    rw [Int.floor_eq_iff]
    constructor
    · push_cast
      linarith
    · push_cast
      have h1 : (c + 1) / 2 ^ 45 ≤ ((1:ℚ) / 2 ^ 60 + 1) / 2 ^ 45 :=
        div_le_div_of_nonneg_right (by linarith) (by positivity)
      have h2 : ((1:ℚ) / 2 ^ 60 + 1) / 2 ^ 45 + 1 / 2 ^ 60 * 100 < 1 / 4 := by norm_num
      nlinarith
  rw [hfloor]
  rfl

/-- **C10** (`ConfidenceHistogram`, total zero). For every bucket list of
non-negative counts whose total is zero: the divisor of the height computation
is 1, not the total, so nothing is divided by zero; a non-empty list is drawn as
one bar per bucket, every bar of height 0; the empty list is drawn as the
placeholder, with no bar. -/
theorem histogram_zero_total_renders_zero_bars (buckets : List Bucket)
    (hnonneg : ∀ b ∈ buckets, b.count.isNonneg = true)
    (hT : histogramTotal buckets = .finite 0) :
    histogramDivisor (histogramTotal buckets) = .finite 1
      ∧ (∀ b ∈ buckets, barHeight (histogramTotal buckets) b = .finite 0)
      ∧ (buckets ≠ [] →
          ConfidenceHistogram buckets = some (List.replicate buckets.length (.finite 0)))
      ∧ (buckets = [] → ConfidenceHistogram buckets = none) := by
  have hdiv : histogramDivisor (histogramTotal buckets) = .finite 1 := by
    simp [histogramDivisor, hT, F64.truthy]
  have hbar : ∀ b ∈ buckets, barHeight (histogramTotal buckets) b = .finite 0 := by
    intro b hb
    obtain ⟨_, hall⟩ := foldl_add_small buckets 0 0 (le_refl 0) hnonneg hT (by positivity)
    obtain ⟨c, hc, hc0, hcle⟩ := hall b hb
    rw [hT]
    exact barHeight_of_tiny c hc0 hcle b hc
  refine ⟨hdiv, hbar, ?_, ?_⟩
  · intro hne
    have hlen : buckets.length ≠ 0 := by
      intro hz
      exact hne (List.length_eq_zero.mp hz)
    simp only [ConfidenceHistogram, hlen, if_false]
    congr 1
    rw [List.eq_replicate_iff]
    constructor
    · simp
    · intro x hx
      obtain ⟨b, hb, rfl⟩ := List.mem_map.mp hx
      exact hbar b hb
  · intro hnil
    subst hnil
    rfl

/-- Three empty buckets, in both forms, and the empty histogram. -/
theorem histogram_zero_total_renders_zero_bars_witness :
    ConfidenceHistogram [.bare (.finite 0), .record (some (1 / 10)) none (.finite 0),
        .bare (.finite 0)]
      = some [.finite 0, .finite 0, .finite 0]
      ∧ ConfidenceHistogram [] = none := by
  have htotal : histogramTotal [.bare (.finite 0), .record (some (1 / 10)) none (.finite 0),
      .bare (.finite 0)] = .finite 0 := by
    simp [histogramTotal, Bucket.count, F64.add, ofRat_zero]
  have hfirst := (histogram_zero_total_renders_zero_bars
    [.bare (.finite 0), .record (some (1 / 10)) none (.finite 0), .bare (.finite 0)]
    (by simp [Bucket.count, F64.isNonneg]) htotal).2.2.1 (by simp)
  have hsecond := (histogram_zero_total_renders_zero_bars [] (by simp) rfl).2.2.2 rfl
  exact ⟨hfirst, hsecond⟩

/-! ## Model lifecycle workflow: `handleUpload` -/

/-- What `handleUpload` does when an artifact is picked and a version typed:
the upload request comes first after `preventDefault`. -/
theorem handleUpload_of_ready (h : Host) (backend : Backend) (f : JsFile) (version : String)
    (threshold : ℚ) (hversion : version ≠ "") :
    ∃ rest, handleUpload h backend (some f) version threshold
      = .preventDefault :: .fetch (uploadRequest f version (some threshold)) :: rest := by
  cases hreq : request h (backend (uploadRequest f version (some threshold))) with
  | error message =>
    exact ⟨[.alert ("Upload failed: " ++ message)], by
      simp [handleUpload, JsVal.truthy, hversion, uploadModel, hreq]⟩
  | ok ack =>
    exact ⟨[.alert "Uploaded", .setFile none, .setVersion ""] ++ loadModels h backend, by
      simp [handleUpload, JsVal.truthy, hversion, uploadModel, hreq]⟩

/-- What `handleUpload` does when the artifact is missing or the version is
empty: the alert, and nothing else after `preventDefault`. -/
theorem handleUpload_of_missing (h : Host) (backend : Backend) (file : Option JsFile)
    (version : String) (threshold : ℚ) (hmissing : file = none ∨ version = "") :
    handleUpload h backend file version threshold
      = [.preventDefault, .alert "Provide version and .joblib file"] := by
  cases file with
  | none => simp [handleUpload]
  | some f =>
    rcases hmissing with hfile | hversion
    · cases hfile
    · simp [handleUpload, JsVal.truthy, hversion]

/-- **C11** (`ModelManager.handleUpload`). For every state of the form: when
the artifact is missing (`file` is `null`) or the version is the empty string,
`handleUpload` shows the alert and does nothing else, so it issues no request
and leaves `file`, `version` and `models` (the whole state) as they were; a
request is issued only when an artifact is picked and the version is not
empty, and then the upload request is issued. -/
theorem handleUpload_requires_file_and_version (h : Host) (backend : Backend)
    (file : Option JsFile) (version : String) (threshold : ℚ) :
    ((file = none ∨ version = "") →
        handleUpload h backend file version threshold
            = [.preventDefault, .alert "Provide version and .joblib file"]
          ∧ (∀ e ∈ handleUpload h backend file version threshold, e.isFetch = false)
          ∧ ∀ s : ModelManagerState,
              ModelManager.run s (handleUpload h backend file version threshold) = s)
      ∧ ((∃ e ∈ handleUpload h backend file version threshold, e.isFetch = true) →
          file ≠ none ∧ version ≠ "")
      ∧ (∀ f, file = some f → version ≠ "" →
          .fetch (uploadRequest f version (some threshold))
            ∈ handleUpload h backend file version threshold) := by
  have hguard : (file = none ∨ version = "") →
      ∀ e ∈ handleUpload h backend file version threshold, e.isFetch = false := by
    intro hmissing e he
    rw [handleUpload_of_missing h backend file version threshold hmissing] at he
    simp at he
    rcases he with he | he <;> subst he <;> rfl
  refine ⟨?_, ?_, ?_⟩
  · intro hmissing
    refine ⟨handleUpload_of_missing h backend file version threshold hmissing,
      hguard hmissing, ?_⟩
    intro s
    rw [handleUpload_of_missing h backend file version threshold hmissing]
    rfl
  · rintro ⟨e, he, hfetch⟩
    by_contra hnot
    have hmissing : file = none ∨ version = "" := by
      by_cases hfile : file = none
      · exact Or.inl hfile
      · by_cases hversion : version = ""
        · exact Or.inr hversion
        · exact absurd ⟨hfile, hversion⟩ hnot
    rw [hguard hmissing e he] at hfetch
    cases hfetch
  · intro f hfile hversion
    subst hfile
    obtain ⟨rest, hrest⟩ := handleUpload_of_ready h backend f version threshold hversion
    rw [hrest]
    simp

/-- An upload without a version and an upload without an artifact: the state
of `ModelManager` stays as it was, and no request is issued. -/
theorem handleUpload_requires_file_and_version_witness :
    ModelManager.run sampleManagerState
        (handleUpload sampleHost ackBackend (some sampleFile) "" (3 / 5)) = sampleManagerState
      ∧ (∀ e ∈ handleUpload sampleHost ackBackend none "v3" (3 / 5), e.isFetch = false)
      ∧ .fetch (uploadRequest sampleFile "v3" (some (3 / 5)))
          ∈ handleUpload sampleHost ackBackend (some sampleFile) "v3" (3 / 5) :=
  ⟨((handleUpload_requires_file_and_version sampleHost ackBackend (some sampleFile) ""
      (3 / 5)).1 (Or.inr rfl)).2.2 sampleManagerState,
   ((handleUpload_requires_file_and_version sampleHost ackBackend none "v3"
      (3 / 5)).1 (Or.inl rfl)).2.1,
   (handleUpload_requires_file_and_version sampleHost ackBackend (some sampleFile) "v3"
      (3 / 5)).2.2 sampleFile rfl (by decide)⟩

/-! ## API contract layer: `predict` -/

/-- **C12** (`predict(text, threshold)`). For every text and threshold,
`predict` issues one request and nothing else: a `POST` to `/predict/` whose
JSON body has the field `text` equal to the given text; the body has a field
`threshold`, equal to the given value, exactly when a threshold was supplied
(is not `null`), and is the object with the one field `text` when it was not. -/
theorem predict_issues_one_post (h : Host) (backend : Backend) (text : String)
    (threshold : Option ℚ) :
    (predict h backend text threshold).1 = [.fetch (predictRequest text threshold)]
      ∧ ((predict h backend text threshold).1.filter Effect.isFetch).length = 1
      ∧ (predictRequest text threshold).path = "/predict/"
      ∧ (predictRequest text threshold).method = "POST"
      ∧ (predictRequest text threshold).formBody = none
      ∧ (predictRequest text threshold).jsonBody = some (predictBody text threshold)
      ∧ (predictBody text threshold).field "text" = .str text
      ∧ (∀ t, threshold = some t →
          predictBody text threshold = .obj [("text", .str text), ("threshold", .num t)]
            ∧ (predictBody text threshold).field "threshold" = .num t)
      ∧ (threshold = none →
          predictBody text threshold = .obj [("text", .str text)]
            ∧ (predictBody text threshold).field "threshold" = .undefined)
      ∧ ((predictBody text threshold).field "threshold" ≠ .undefined ↔ threshold ≠ none) := by
  refine ⟨rfl, rfl, rfl, rfl, rfl, rfl, ?_, ?_, ?_, ?_⟩
  · cases threshold <;> simp [predictBody, JsVal.field, List.lookup]
  · intro t ht
    subst ht
    simp [predictBody, JsVal.field, List.lookup]
  · intro ht
    subst ht
    simp [predictBody, JsVal.field, List.lookup]
  · cases threshold <;> simp [predictBody, JsVal.field, List.lookup]

/-- Scenario 1 of the specification, threshold omitted, and the same text with
the threshold 0.6. -/
theorem predict_issues_one_post_witness :
    (predict sampleHost spamBackend "Free entry! Claim prize now" none).1
        = [.fetch { path := "/predict/", method := "POST",
                    jsonBody := some (.obj [("text", .str "Free entry! Claim prize now")]) }]
      ∧ predictBody "Free entry! Claim prize now" (some (3 / 5))
        = .obj [("text", .str "Free entry! Claim prize now"), ("threshold", .num (3 / 5))] :=
  ⟨(predict_issues_one_post sampleHost spamBackend "Free entry! Claim prize now" none).1,
   ((predict_issues_one_post sampleHost spamBackend "Free entry! Claim prize now"
      (some (3 / 5))).2.2.2.2.2.2.2.1 (3 / 5) rfl).1⟩

end SpamVision
